import Mathlib

/-!
# cli-todo-app: the task store of `main.go`

A shallow embedding of the `TodoList` methods of `main.go` and the properties
of the store they maintain.

Modelling choices.

* `time.Time` is a clock reading, a natural number; `time.Now()` is an input of
  the operation that reads it.
* Go's `int` is the 64-bit two's complement integer: a value is an integer
  between `minInt` and `maxInt`, and `tl.NextID++` wraps around (`wrapInt`).
* A Go `string` is a sequence of bytes (`GoString`), not necessarily valid
  UTF-8: the descriptions come from the command line.  A Lean string literal
  stands for the bytes of its UTF-8 encoding.
* `*time.Time` is `Option Time`: the pointer is only ever compared with `nil`
  and read.
* A method with receiver `tl *TodoList` becomes a function from the store
  before the call to the store after it, paired with the list of effects
  (lines printed, calls of `save`) in program order.
* `tl.Tasks` is the visible content of the slice (its first `len` cells).
  The cells of the backing array beyond `len` are never read by any method,
  except inside the `range` loop of `DeleteCompleted`, which keeps the slice
  header it started with while `Delete` shifts the cells under it; that loop
  carries the cells explicitly (`SweepState.cells`).
* The floating point computation of `Stats` is not modelled: the text of the
  percentage is a parameter of `Stats`.
* `main` is modelled from the values of its flag variables on; it yields the
  command it dispatches to and the exit status.
* The file system and the libraries behind `save` and `Load` are described in
  the section on persistence.
-/

namespace TodoApp

/-- Clock reading standing for a `time.Time` value. -/
abbrev Time := Nat

/-- A Go `string`: any sequence of bytes. -/
structure GoString where
  bytes : List UInt8
  deriving DecidableEq, Repr

/-- The UTF-8 encoding of one character. -/
def utf8Bytes (c : Char) : List UInt8 :=
  let n := c.toNat
  if n < 128 then [UInt8.ofNat n]
  else if n < 2048 then [UInt8.ofNat (192 + n / 64), UInt8.ofNat (128 + n % 64)]
  else if n < 65536 then
    [UInt8.ofNat (224 + n / 4096), UInt8.ofNat (128 + n / 64 % 64), UInt8.ofNat (128 + n % 64)]
  else
    [UInt8.ofNat (240 + n / 262144), UInt8.ofNat (128 + n / 4096 % 64),
     UInt8.ofNat (128 + n / 64 % 64), UInt8.ofNat (128 + n % 64)]

/-- The UTF-8 encoding of a sequence of characters. -/
def utf8Encode : List Char → List UInt8
  | [] => []
  | c :: rest => utf8Bytes c ++ utf8Encode rest

/-- The Go string that holds a text: the bytes of its UTF-8 encoding. -/
def GoString.ofString (s : String) : GoString := ⟨utf8Encode s.data⟩

instance : Coe String GoString := ⟨GoString.ofString⟩

instance : Append GoString := ⟨fun a b => ⟨a.bytes ++ b.bytes⟩⟩

/-- The largest value of Go's `int` on the 64-bit platforms. -/
def maxInt : Int := 9223372036854775807

/-- The smallest value of Go's `int` on the 64-bit platforms. -/
def minInt : Int := -9223372036854775808

/-- One step of Go's `utf8.DecodeRune` on a non-empty sequence of bytes: the
character at its head and the number of bytes it takes; where the bytes are
not the UTF-8 encoding of a character, the replacement character U+FFFD and
one byte. -/
def decodeRune (bs : List UInt8) : Char × Nat :=
  let bad : Char × Nat := (Char.ofNat 65533, 1)
  let cont := fun (b : UInt8) => 128 ≤ b.toNat ∧ b.toNat ≤ 191
  match bs with
  | [] => bad
  | b0 :: rest =>
    let x := b0.toNat
    if x < 128 then (Char.ofNat x, 1)
    else if 194 ≤ x ∧ x ≤ 223 then
      match rest with
      | b1 :: _ =>
        if cont b1 then (Char.ofNat ((x - 192) * 64 + (b1.toNat - 128)), 2) else bad
      | _ => bad
    else if 224 ≤ x ∧ x ≤ 239 then
      match rest with
      | b1 :: b2 :: _ =>
        let lo := if x = 224 then 160 else 128
        let hi := if x = 237 then 159 else 191
        if lo ≤ b1.toNat ∧ b1.toNat ≤ hi ∧ cont b2 then
          (Char.ofNat ((x - 224) * 4096 + (b1.toNat - 128) * 64 + (b2.toNat - 128)), 3)
        else bad
      | _ => bad
    else if 240 ≤ x ∧ x ≤ 244 then
      match rest with
      | b1 :: b2 :: b3 :: _ =>
        let lo := if x = 240 then 144 else 128
        let hi := if x = 244 then 143 else 191
        if lo ≤ b1.toNat ∧ b1.toNat ≤ hi ∧ cont b2 ∧ cont b3 then
          (Char.ofNat ((x - 240) * 262144 + (b1.toNat - 128) * 4096 +
            (b2.toNat - 128) * 64 + (b3.toNat - 128)), 4)
        else bad
      | _ => bad
    else bad

/-- The characters that repeated `utf8.DecodeRune` reads from a sequence of
bytes; `fuel` bounds the number of steps, the length of the sequence is
enough. -/
def decodeRunes : Nat → List UInt8 → List Char
  | 0, _ => []
  | _ + 1, [] => []
  | fuel + 1, b :: rest =>
    (decodeRune (b :: rest)).1 ::
      decodeRunes fuel ((b :: rest).drop (decodeRune (b :: rest)).2)

/-- The text that `encoding/json` writes for a Go string: the string "coerced
to valid UTF-8", every byte that is not part of an encoded character
replaced by U+FFFD. -/
def toValidUTF8 (d : GoString) : String := String.mk (decodeRunes d.bytes.length d.bytes)

/-- A Go string is valid UTF-8 when the coercion leaves it as it is. -/
@[reducible] def ValidUTF8 (d : GoString) : Prop := GoString.ofString (toValidUTF8 d) = d

/-- The value that 64-bit two's complement arithmetic keeps of an integer:
the result of `+` and `++` on Go's `int`. -/
def wrapInt (n : Int) : Int :=
  (n + 9223372036854775808) % 18446744073709551616 - 9223372036854775808

/-- The `Task` struct of `main.go`. -/
structure Task where
  ID : Int
  Description : GoString
  Completed : Bool
  CreatedAt : Time
  CompletedAt : Option Time
  deriving DecidableEq, Repr

/-- The `TodoList` struct of `main.go`. -/
structure TodoList where
  Tasks : List Task
  NextID : Int
  filename : String
  deriving DecidableEq, Repr

/-- Observable effects of a method, in program order: a line written to
standard output by `fmt.Printf`/`fmt.Println`, or a call of `tl.save()` with
the store it serialises. -/
inductive Event where
  | print (text : GoString)
  | save (snapshot : TodoList)
  deriving DecidableEq, Repr

/-- The `%d` verb of `fmt.Printf`. -/
def fmtInt (n : Int) : String := toString n

/-- The store built by `NewTodoList` before `Load` runs. -/
def emptyStore (filename : String) : TodoList :=
  { Tasks := [], NextID := 1, filename := filename }

/-- The local `task` that `Add` builds: `CompletedAt` is left at its zero
value `nil`. -/
def newTask (tl : TodoList) (description : GoString) (now : Time) : Task :=
  { ID := tl.NextID, Description := description, Completed := false,
    CreatedAt := now, CompletedAt := none }

/-- `TodoList.Add`; `tl.NextID++` wraps around at `maxInt`. -/
def Add (tl : TodoList) (description : GoString) (now : Time) : TodoList × List Event :=
  let task := newTask tl description now
  let tl1 : TodoList :=
    { tl with Tasks := tl.Tasks ++ [task], NextID := wrapInt (tl.NextID + 1) }
  (tl1, [Event.save tl1,
         Event.print ("Added task: " ++ fmtInt task.ID ++ " - " ++ task.Description ++ "\n")])

/-- Index of the first task with `ID == id`: the search that the loops of
`Complete` and `Delete` perform over `tl.Tasks`. -/
def findByID (id : Int) : List Task → Option Nat
  | [] => none
  | task :: rest => if task.ID = id then some 0 else (findByID id rest).map (· + 1)

/-- `TodoList.Complete`; `now` is the value `time.Now()` returns if it is
called. -/
def Complete (tl : TodoList) (id : Int) (now : Time) : TodoList × List Event :=
  match findByID id tl.Tasks with
  | none => (tl, [])
  | some i =>
    match tl.Tasks.get? i with
    | none => (tl, [])
    | some task =>
      if task.Completed then
        (tl, [Event.print ("Task " ++ fmtInt id ++ " is already completed\n")])
      else
        let tl1 : TodoList :=
          { tl with Tasks := tl.Tasks.set i { task with Completed := true, CompletedAt := some now } }
        (tl1, [Event.save tl1, Event.print ("Task " ++ fmtInt id ++ " completed\n")])

/-- `TodoList.Delete`: `append(tl.Tasks[:i], tl.Tasks[i+1:]...)` at the first
index `i` whose task has the id. -/
def Delete (tl : TodoList) (id : Int) : TodoList × List Event :=
  match findByID id tl.Tasks with
  | some i =>
    let tl1 : TodoList := { tl with Tasks := tl.Tasks.take i ++ tl.Tasks.drop (i + 1) }
    (tl1, [Event.save tl1, Event.print ("Task " ++ fmtInt id ++ " deleted\n")])
  | none => (tl, [Event.print ("Task " ++ fmtInt id ++ " not found\n")])

/-- State of the first loop of `DeleteCompleted`.  `cells` are the cells of
the backing array that the loop's `range` reads: the slice header is
evaluated once, before the first iteration, so the loop visits the indices
below the original length and reads the cell as it is at that moment. -/
structure SweepState where
  tl : TodoList
  cells : List Task
  deleted : List Task
  out : List Event
  deriving DecidableEq, Repr

/-- Effect, on the cells of the backing array, of the assignment in `Delete`:
`append` has room in place, so the new content of the slice is written over
the first cells and the cells after it keep what they held. -/
def shiftCells (tasks : List Task) (cells : List Task) : List Task :=
  tasks ++ cells.drop tasks.length

/-- One iteration, at index `i`, of the first loop of `DeleteCompleted`. -/
def sweepStep (st : SweepState) (i : Nat) : SweepState :=
  match st.cells.get? i with
  | none => st
  | some task =>
    if task.Completed then
      let r := Delete st.tl task.ID
      { tl := r.1,
        cells := shiftCells r.1.Tasks st.cells,
        deleted := st.deleted ++ [task],
        out := st.out ++
          [Event.print ("Deleting completed task: " ++ fmtInt task.ID ++ " - " ++
            task.Description ++ "\n")] ++ r.2 }
    else st

/-- The first loop of `DeleteCompleted`, over the indices of the slice as it
was when the loop started. -/
def sweep (tl : TodoList) : SweepState :=
  (List.range tl.Tasks.length).foldl sweepStep
    { tl := tl, cells := tl.Tasks, deleted := [], out := [] }

/-- `TodoList.DeleteCompleted`. -/
def DeleteCompleted (tl : TodoList) : TodoList × List Event :=
  if tl.Tasks.length = 0 then
    (tl, [Event.print "No tasks to delete\n"])
  else
    let st := sweep tl
    if st.deleted.length = 0 then
      (st.tl, st.out ++ [Event.print "No completed tasks to delete\n"])
    else
      (st.tl, st.out ++
        [Event.print ("\n Deleting " ++ fmtInt st.deleted.length ++ " completed tasks: \n"),
         Event.print "================\n"] ++
        st.deleted.map (fun task =>
          Event.print ("Deleted: " ++ fmtInt task.ID ++ " - " ++ task.Description ++ "\n")) ++
        [Event.print ("Deleted " ++ fmtInt st.deleted.length ++ " completed tasks\n")])

/-- The number `N` of the closing line `Deleted N completed tasks` of
`DeleteCompleted`: `len(deleted)`. -/
def reportedCount (tl : TodoList) : Nat := (sweep tl).deleted.length

/-- A call of one of the four mutating methods, with the clock reading it is
given. -/
inductive Op where
  | add (description : GoString) (now : Time)
  | complete (id : Int) (now : Time)
  | delete (id : Int)
  | deleteCompleted
  deriving DecidableEq, Repr

/-- The store after one call. -/
def step (tl : TodoList) : Op → TodoList
  | Op.add description now => (Add tl description now).1
  | Op.complete id now => (Complete tl id now).1
  | Op.delete id => (Delete tl id).1
  | Op.deleteCompleted => (DeleteCompleted tl).1

/-- The store after a sequence of calls. -/
def run (tl : TodoList) (ops : List Op) : TodoList := ops.foldl step tl

/-- The ids given to the new tasks by the `Add` calls of a sequence, in call
order. -/
def assignedIDs (tl : TodoList) : List Op → List Int
  | [] => []
  | Op.add description now :: ops =>
    (newTask tl description now).ID :: assignedIDs (step tl (Op.add description now)) ops
  | op :: ops => assignedIDs (step tl op) ops

/-- The clock readings of a sequence of calls, in call order. -/
def clockReadings : List Op → List Time
  | [] => []
  | Op.add _ now :: ops => now :: clockReadings ops
  | Op.complete _ now :: ops => now :: clockReadings ops
  | _ :: ops => clockReadings ops

/-- The number of `Add` calls in a sequence of calls. -/
def addCalls : List Op → Nat
  | [] => 0
  | Op.add _ _ :: ops => addCalls ops + 1
  | _ :: ops => addCalls ops

/-- The sequence of `n` calls `Add("x")`. -/
def manyAdds (n : Nat) : List Op := List.replicate n (Op.add "x" 0)

/-! ## Invariants -/

/-- The invariant on one task: a pending task has no completion time, a
completed one has a completion time that is not before its creation. -/
def TaskInv (t : Task) : Prop :=
  (t.Completed = false → t.CompletedAt = none) ∧
  (t.Completed = true → ∃ c, t.CompletedAt = some c ∧ t.CreatedAt ≤ c)

/-! ## Sample stores -/

/-- Three tasks added to the empty store, the first two then completed. -/
def twoDoneOnePending : TodoList :=
  run (emptyStore "todos.json")
    [Op.add "Buy milk" 10, Op.add "Walk dog" 20, Op.add "Read book" 30,
     Op.complete 1 40, Op.complete 2 50]

/-- Three tasks added to the empty store, all three then completed. -/
def threeDone : TodoList :=
  run (emptyStore "todos.json")
    [Op.add "Buy milk" 10, Op.add "Walk dog" 20, Op.add "Read book" 30,
     Op.complete 1 40, Op.complete 2 50, Op.complete 3 60]

/-- Two tasks, the first completed. -/
def oneDoneOnePending : TodoList :=
  run (emptyStore "todos.json") [Op.add "Buy milk" 10, Op.add "Walk dog" 20, Op.complete 1 30]

/-- A store whose only task, completed, carries the id that `NextID` will
hand out next. -/
def staleCounterStore : TodoList :=
  { Tasks := [⟨1, "Buy milk", true, 10, some 20⟩], NextID := 1, filename := "todos.json" }

/-- A store whose only task, completed, carries the id `minInt`, with `NextID`
at `maxInt`. -/
def wrapCounterStore : TodoList :=
  { Tasks := [⟨-9223372036854775808, "Buy milk", true, 10, some 20⟩],
    NextID := 9223372036854775807, filename := "todos.json" }

/-- Three tasks, the second completed. -/
def oneOfThreeDone : TodoList :=
  run (emptyStore "todos.json")
    [Op.add "Buy milk" 10, Op.add "Walk dog" 20, Op.add "Read book" 30, Op.complete 2 40]

/-! ## Stats -/

/-- The local `total` of `Stats`: `len(tl.Tasks)`. -/
def statsTotal (tl : TodoList) : Int := tl.Tasks.length

/-- The local `completed` of `Stats` after its loop: the counter starts at 0
and is incremented at each task with `Completed` set. -/
def statsCompleted (tl : TodoList) : Int :=
  tl.Tasks.foldl (fun completed task => if task.Completed then completed + 1 else completed) 0

/-- The local `pending` of `Stats`: `total - completed`. -/
def statsPending (tl : TodoList) : Int := statsTotal tl - statsCompleted tl

/-- `TodoList.Stats`.  `percent completed total` is the text that the verb
`%.2f` gives for `float64(completed) / float64(total) * 100`; the floating
point computation is not modelled. -/
def Stats (percent : Int → Int → String) (tl : TodoList) : TodoList × List Event :=
  let total := statsTotal tl
  let completed := statsCompleted tl
  let pending := statsPending tl
  (tl,
    [Event.print "\n Tasks Stats: \n\n",
     Event.print ("Total tasks: " ++ fmtInt total ++ "\n"),
     Event.print ("Completed tasks: " ++ fmtInt completed ++ "\n"),
     Event.print ("Pending tasks: " ++ fmtInt pending ++ "\n")] ++
    (if total > 0 then
      [Event.print ("Completion percentage: " ++ percent completed total ++ "%\n")]
    else []))

/-! ## The command line -/

/-- The flag variables of `main` after `flag.Parse()` has returned, and
`nflag`, the value of `flag.NFlag()`: the number of flags that were set on
the command line.  A command line that `flag.Parse` rejects (a flag that is
not defined, a value that does not parse) never reaches the code below:
the `flag` package ends the process itself. -/
structure Flags where
  add : GoString
  list : Bool
  pending : Bool
  complete : Int
  delete : Int
  deleteCompleted : Bool
  stats : Bool
  help : Bool
  nflag : Nat
  deriving DecidableEq, Repr

/-- What `main` does after parsing: the method it calls, or the usage text,
or the `default` branch of its `switch`. -/
inductive Command where
  | showUsage
  | add (description : GoString)
  | list
  | listPending
  | complete (id : Int)
  | delete (id : Int)
  | deleteCompleted
  | stats
  | invalid
  deriving DecidableEq, Repr

/-- The dispatch of `main`: the command chosen and the exit status of the
process, 0 when `main` returns and 1 from `os.Exit(1)`. -/
def main (fl : Flags) : Command × Nat :=
  if fl.help || fl.nflag == 0 then (Command.showUsage, 0)
  else if fl.add ≠ "" then (Command.add fl.add, 0)
  else if fl.list then (Command.list, 0)
  else if fl.pending then (Command.listPending, 0)
  else if fl.complete > 0 then (Command.complete fl.complete, 0)
  else if fl.delete > 0 then (Command.delete fl.delete, 0)
  else if fl.deleteCompleted then (Command.deleteCompleted, 0)
  else if fl.stats then (Command.stats, 0)
  else (Command.invalid, 1)

/-- The flag variables when the program is started with no argument: every
flag at its default, `flag.NFlag()` zero. -/
def noFlags : Flags :=
  { add := "", list := false, pending := false, complete := 0, delete := 0,
    deleteCompleted := false, stats := false, help := false, nflag := 0 }

/-! ## Persistence

`save` and `Load` go through `encoding/json`, `time` and `io/ioutil`, which
are not part of the program.  The file system is a map from file names to
contents; a content is classified by what the scanner of `encoding/json`
makes of the bytes.  What `json.Unmarshal` does with a valid document is
modelled after the rules documented for that package, for the target that
`NewTodoList` passes; the treatment of string literals and of timestamps, and
the cases left out, are parameters (`JsonLib`). -/

/-- A JSON text that the scanner of `encoding/json` accepts, as a value.
`int` is a number literal that `strconv.ParseInt` reads, `float` any other
number literal; `str` carries the text between the quotes, escapes not yet
resolved, its bytes coerced to valid UTF-8 as the decoder does; the members
of an object are in document order, their names unquoted. -/
inductive Json where
  | null
  | bool (b : Bool)
  | int (n : Int)
  | float (literal : String)
  | str (literal : String)
  | arr (items : List Json)
  | obj (members : List (String × Json))

/-- The bytes of a file, by what `json.Unmarshal` first does with them: it
checks the whole text (`checkValid`) and returns a syntax error before it
touches its target, or it goes on to decode the document. -/
inductive FileContent where
  | invalid (text : String)
  | document (doc : Json)

/-- The parts of the libraries that are taken as given: the string literal
that `encoding/json` writes for a text (escaping) and the text it reads from
a literal; the literal that `time.Time.MarshalJSON` writes and what
`time.Time.UnmarshalJSON` reads from a literal (`none` when it returns an
error); and `outside`, the target and the error status that `json.Unmarshal`
leaves for the documents that `decodeDoc` does not cover. -/
structure JsonLib where
  quote : String → String
  unquote : String → String
  formatTime : Time → String
  parseTime : String → Option Time
  outside : Json → TodoList → TodoList × Bool

/-- The zero value of `Task`, which a new cell of the slice holds before an
array element is decoded into it; the zero `time.Time` is the reading 0. -/
def zeroTask : Task :=
  { ID := 0, Description := "", Completed := false, CreatedAt := 0, CompletedAt := none }

/-- Case folding of one character of a member name: ASCII letters to upper
case, and the two other characters that fold to an ASCII letter, U+017F to
`S` and U+212A to `K`. -/
def foldChar (c : Char) : Char :=
  if c = Char.ofNat 383 then 'S' else if c = Char.ofNat 8490 then 'K' else c.toUpper

/-- Case folding of a member name. -/
def foldName (s : String) : String := String.mk (s.data.map foldChar)

/-- The exported fields of `Task`. -/
inductive TaskField where
  | id | description | completed | createdAt | completedAt
  deriving DecidableEq, Repr

/-- The `json` tag of a field of `Task`. -/
def TaskField.tag : TaskField → String
  | TaskField.id => "id"
  | TaskField.description => "description"
  | TaskField.completed => "completed"
  | TaskField.createdAt => "created_at"
  | TaskField.completedAt => "completed_at"

/-- The field of `Task` that a member name selects: the field with exactly
that tag, or else the first field whose tag is the same up to case. -/
def taskFieldOf (key : String) : Option TaskField :=
  let fields := [TaskField.id, TaskField.description, TaskField.completed,
    TaskField.createdAt, TaskField.completedAt]
  match fields.find? (fun f => f.tag == key) with
  | some f => some f
  | none => fields.find? (fun f => foldName f.tag == foldName key)

/-- The fields of `TodoList` that carry a `json` tag; `filename` is not
exported and is neither written nor read. -/
inductive TodoField where
  | tasks | nextID
  deriving DecidableEq, Repr

/-- The `json` tag of a field of `TodoList`. -/
def TodoField.tag : TodoField → String
  | TodoField.tasks => "tasks"
  | TodoField.nextID => "next_id"

/-- The field of `TodoList` that a member name selects. -/
def todoFieldOf (key : String) : Option TodoField :=
  let fields := [TodoField.tasks, TodoField.nextID]
  match fields.find? (fun f => f.tag == key) with
  | some f => some f
  | none => fields.find? (fun f => foldName f.tag == foldName key)

/-- Decoding into an `int` field: the new value and whether a type error was
recorded.  `null` has no effect; a number that does not fit the type, or a
value of another kind, is skipped and recorded as an error. -/
def decodeInt (cur : Int) : Json → Int × Bool
  | Json.int n => if minInt ≤ n ∧ n ≤ maxInt then (n, false) else (cur, true)
  | Json.null => (cur, false)
  | _ => (cur, true)

/-- Decoding into a `string` field. -/
def decodeString (L : JsonLib) (cur : GoString) : Json → GoString × Bool
  | Json.str literal => (GoString.ofString (L.unquote literal), false)
  | Json.null => (cur, false)
  | _ => (cur, true)

/-- Decoding into a `bool` field. -/
def decodeBool (cur : Bool) : Json → Bool × Bool
  | Json.bool b => (b, false)
  | Json.null => (cur, false)
  | _ => (cur, true)

/-- Decoding into a `time.Time` field through `UnmarshalJSON`: `null` has no
effect; `none` when `UnmarshalJSON` returns an error, which ends the decoding
(not covered here). -/
def decodeTime (L : JsonLib) (cur : Time) : Json → Option Time
  | Json.null => some cur
  | Json.str literal => L.parseTime literal
  | _ => none

/-- Decoding into a `*time.Time` field: `null` sets the pointer to `nil`. -/
def decodeTimePtr (L : JsonLib) : Json → Option (Option Time)
  | Json.null => some none
  | Json.str literal => (L.parseTime literal).map some
  | _ => none

/-- One member of an object decoded into a `Task`; a name that selects no
field is ignored. -/
def decodeTaskMember (L : JsonLib) (st : Task × Bool) (key : String) (v : Json) :
    Option (Task × Bool) :=
  match taskFieldOf key with
  | none => some st
  | some TaskField.id =>
    let r := decodeInt st.1.ID v
    some ({ st.1 with ID := r.1 }, st.2 || r.2)
  | some TaskField.description =>
    let r := decodeString L st.1.Description v
    some ({ st.1 with Description := r.1 }, st.2 || r.2)
  | some TaskField.completed =>
    let r := decodeBool st.1.Completed v
    some ({ st.1 with Completed := r.1 }, st.2 || r.2)
  | some TaskField.createdAt =>
    (decodeTime L st.1.CreatedAt v).map (fun t => ({ st.1 with CreatedAt := t }, st.2))
  | some TaskField.completedAt =>
    (decodeTimePtr L v).map (fun c => ({ st.1 with CompletedAt := c }, st.2))

/-- The members of an object decoded into a `Task`, in document order. -/
def decodeTaskMembers (L : JsonLib) : List (String × Json) → Task × Bool → Option (Task × Bool)
  | [], st => some st
  | (key, v) :: rest, st => (decodeTaskMember L st key v).bind (decodeTaskMembers L rest)

/-- One array element decoded into a new cell of `[]Task`: an object is
decoded member by member, `null` leaves the zero value, any other value is a
type error that leaves the zero value too. -/
def decodeTask (L : JsonLib) : Json → Option (Task × Bool)
  | Json.obj members => decodeTaskMembers L members (zeroTask, false)
  | Json.null => some (zeroTask, false)
  | _ => some (zeroTask, true)

/-- An array decoded into an empty `[]Task`. -/
def decodeTasks (L : JsonLib) : List Json → Option (List Task × Bool)
  | [] => some ([], false)
  | item :: rest =>
    match decodeTask L item, decodeTasks L rest with
    | some (t, e1), some (ts, e2) => some (t :: ts, e1 || e2)
    | _, _ => none

/-- One member of the top-level object decoded into the `TodoList`.  An
array is decoded into `Tasks` only while `Tasks` is empty (what happens to a
slice that already has elements is not covered). -/
def decodeTodoMember (L : JsonLib) (st : TodoList × Bool) (key : String) (v : Json) :
    Option (TodoList × Bool) :=
  match todoFieldOf key with
  | none => some st
  | some TodoField.nextID =>
    let r := decodeInt st.1.NextID v
    some ({ st.1 with NextID := r.1 }, st.2 || r.2)
  | some TodoField.tasks =>
    if st.1.Tasks.length = 0 then
      match v with
      | Json.arr items =>
        (decodeTasks L items).map (fun r => ({ st.1 with Tasks := r.1 }, st.2 || r.2))
      | Json.null => some st
      | _ => some (st.1, true)
    else none

/-- The members of the top-level object, in document order. -/
def decodeTodoMembers (L : JsonLib) :
    List (String × Json) → TodoList × Bool → Option (TodoList × Bool)
  | [], st => some st
  | (key, v) :: rest, st => (decodeTodoMember L st key v).bind (decodeTodoMembers L rest)

/-- A valid document decoded into a `TodoList`: the target afterwards and
whether an error is returned; `none` for the documents not covered.  A
top-level `null` has no effect, a top-level value that is not an object is a
type error. -/
def decodeDoc (L : JsonLib) (tl : TodoList) : Json → Option (TodoList × Bool)
  | Json.obj members => decodeTodoMembers L members (tl, false)
  | Json.null => some (tl, false)
  | _ => some (tl, true)

/-- The call `json.Unmarshal(data, tl)`: the store afterwards and whether the
error returned is not `nil`. -/
def Unmarshal (L : JsonLib) (content : FileContent) (tl : TodoList) : TodoList × Bool :=
  match content with
  | FileContent.invalid _ => (tl, true)
  | FileContent.document doc =>
    match decodeDoc L tl doc with
    | some r => r
    | none => L.outside doc tl

/-- The object that `encoding/json` writes for a `Task`: one member per
exported field, under its tag, in the order of the struct; the description
is coerced to valid UTF-8; a `nil` `CompletedAt` is written as `null`. -/
def marshalTask (L : JsonLib) (t : Task) : Json :=
  Json.obj
    [("id", Json.int t.ID),
     ("description", Json.str (L.quote (toValidUTF8 t.Description))),
     ("completed", Json.bool t.Completed),
     ("created_at", Json.str (L.formatTime t.CreatedAt)),
     ("completed_at",
       match t.CompletedAt with
       | none => Json.null
       | some c => Json.str (L.formatTime c))]

/-- The document of `json.MarshalIndent(tl, "", " ")`. -/
def MarshalIndent (L : JsonLib) (tl : TodoList) : Json :=
  Json.obj
    [("tasks", Json.arr (tl.Tasks.map (marshalTask L))),
     ("next_id", Json.int tl.NextID)]

/-- The files: the content of each file that `ioutil.ReadFile` can read. -/
abbrev Disk := String → Option FileContent

/-- A line written by `log.Printf`. -/
inductive Diagnostic where
  | errorSaving
  | errorLoading
  deriving DecidableEq, Repr

/-- `TodoList.save`.  `failure` is `none` when `ioutil.WriteFile` succeeds,
and the files as it leaves them when it returns an error.  The branch for an
error of `json.MarshalIndent` is left out: encoding these types fails only on
a timestamp whose year is outside 0 to 9999, which a clock reading does not
express. -/
def save (L : JsonLib) (tl : TodoList) (disk : Disk) (failure : Option Disk) :
    Disk × List Diagnostic :=
  match failure with
  | none =>
    (fun name =>
      if name = tl.filename then some (FileContent.document (MarshalIndent L tl))
      else disk name, [])
  | some left => (left, [Diagnostic.errorSaving])

/-- `TodoList.Load`. -/
def Load (L : JsonLib) (disk : Disk) (tl : TodoList) : TodoList × List Diagnostic :=
  match disk tl.filename with
  | none => (tl, [])
  | some content =>
    let r := Unmarshal L content tl
    (r.1, if r.2 then [Diagnostic.errorLoading] else [])

/-- `NewTodoList`. -/
def NewTodoList (L : JsonLib) (disk : Disk) (filename : String) :
    TodoList × List Diagnostic :=
  Load L disk (emptyStore filename)

/-- A task as it is read back from the file: its description coerced to
valid UTF-8. -/
def coerceDescription (t : Task) : Task :=
  { t with Description := GoString.ofString (toValidUTF8 t.Description) }

/-- The store after `Add` of a description that ends in the byte 255, which
is not valid UTF-8. -/
def badTextStore : TodoList :=
  run (emptyStore "todos.json") [Op.add ⟨[98, 97, 100, 32, 255]⟩ 10]

/-- An instance of the library parameters for evaluating examples: string
literals are the strings themselves, a clock reading is written in unary. -/
def sampleLib : JsonLib :=
  { quote := fun s => s
    unquote := fun s => s
    formatTime := fun t => String.mk (List.replicate t 'I')
    parseTime := fun s => some s.length
    outside := fun _ tl => (tl, true) }

/-- A valid document with a string where `next_id` expects a number: an
object whose member `tasks` is an array of one object, with `id` 7 and
`completed` true, and whose member `next_id` is the string `oops`. -/
def wrongTypeDoc : Json :=
  Json.obj
    [("tasks", Json.arr [Json.obj [("id", Json.int 7), ("completed", Json.bool true)]]),
     ("next_id", Json.str "oops")]

/-! ## The search for an id -/

theorem findByID_eq_none {id : Int} {l : List Task} :
    findByID id l = none ↔ ∀ t ∈ l, t.ID ≠ id := by
  induction l with
  | nil => simp [findByID]
  | cons a rest ih =>
    by_cases ha : a.ID = id
    · simp [findByID, ha]
    · simp [findByID, ha, ih]

theorem findByID_split {id : Int} {pre : List Task} {t : Task} {post : List Task}
    (hpre : ∀ x ∈ pre, x.ID ≠ id) (hid : t.ID = id) :
    findByID id (pre ++ t :: post) = some pre.length := by
  induction pre with
  | nil => simp [findByID, hid]
  | cons a rest ih =>
    have ha : a.ID ≠ id := hpre a (List.mem_cons_self _ _)
    have hrest : ∀ x ∈ rest, x.ID ≠ id := fun x hx => hpre x (List.mem_cons_of_mem _ hx)
    simp [findByID, ha, ih hrest]

theorem findByID_eq_some {id : Int} {l : List Task} {i : Nat} (h : findByID id l = some i) :
    ∃ pre t post, l = pre ++ t :: post ∧ pre.length = i ∧ t.ID = id ∧
      ∀ x ∈ pre, x.ID ≠ id := by
  induction l generalizing i with
  | nil => simp [findByID] at h
  | cons a rest ih =>
    by_cases ha : a.ID = id
    · simp [findByID, ha] at h
      exact ⟨[], a, rest, by simp, by simpa using h, ha, by simp⟩
    · simp [findByID, ha] at h
      obtain ⟨j, hj, hji⟩ := h
      obtain ⟨pre, t, post, hl, hlen, hid, hpre⟩ := ih hj
      refine ⟨a :: pre, t, post, by simp [hl], by simp [hlen, hji], hid, ?_⟩
      intro x hx
      rcases List.mem_cons.mp hx with rfl | hx
      · exact ha
      · exact hpre x hx

/-- An id that occurs in the list has a first occurrence. -/
theorem exists_first_match {id : Int} {l : List Task} (h : ∃ t ∈ l, t.ID = id) :
    ∃ pre t post, l = pre ++ t :: post ∧ t.ID = id ∧ ∀ x ∈ pre, x.ID ≠ id := by
  cases hf : findByID id l with
  | none =>
    obtain ⟨t, ht, hid⟩ := h
    exact absurd hid (findByID_eq_none.mp hf t ht)
  | some i =>
    obtain ⟨pre, t, post, hl, _, hid, hpre⟩ := findByID_eq_some hf
    exact ⟨pre, t, post, hl, hid, hpre⟩

/-! ## Delete -/

theorem Delete_of_split {tl : TodoList} {id : Int} {pre : List Task} {t : Task}
    {post : List Task} (hT : tl.Tasks = pre ++ t :: post)
    (hpre : ∀ x ∈ pre, x.ID ≠ id) (hid : t.ID = id) :
    Delete tl id =
      ({ tl with Tasks := pre ++ post },
       [Event.save { tl with Tasks := pre ++ post },
        Event.print ("Task " ++ fmtInt id ++ " deleted\n")]) := by
  unfold Delete
  rw [hT, findByID_split hpre hid]
  simp

theorem Delete_of_absent {tl : TodoList} {id : Int} (h : ∀ t ∈ tl.Tasks, t.ID ≠ id) :
    Delete tl id = (tl, [Event.print ("Task " ++ fmtInt id ++ " not found\n")]) := by
  unfold Delete
  rw [findByID_eq_none.mpr h]

/-- Either `Delete` finds nothing and returns the store as it is, or it
removes the first task with the id. -/
theorem Delete_cases (tl : TodoList) (id : Int) :
    (Delete tl id).1 = tl ∨
    ∃ pre t post, tl.Tasks = pre ++ t :: post ∧ t.ID = id ∧ (∀ x ∈ pre, x.ID ≠ id) ∧
      (Delete tl id).1 = { tl with Tasks := pre ++ post } := by
  cases hf : findByID id tl.Tasks with
  | none =>
    left
    rw [Delete_of_absent (findByID_eq_none.mp hf)]
  | some i =>
    right
    obtain ⟨pre, t, post, hl, _, hid, hpre⟩ := findByID_eq_some hf
    exact ⟨pre, t, post, hl, hid, hpre, by rw [Delete_of_split hl hpre hid]⟩

theorem Delete_NextID (tl : TodoList) (id : Int) : (Delete tl id).1.NextID = tl.NextID := by
  rcases Delete_cases tl id with h | ⟨pre, t, post, _, _, _, h⟩ <;> rw [h]

theorem Delete_filename (tl : TodoList) (id : Int) :
    (Delete tl id).1.filename = tl.filename := by
  rcases Delete_cases tl id with h | ⟨pre, t, post, _, _, _, h⟩ <;> rw [h]

theorem Delete_sublist (tl : TodoList) (id : Int) :
    (Delete tl id).1.Tasks.Sublist tl.Tasks := by
  rcases Delete_cases tl id with h | ⟨pre, t, post, hT, _, _, h⟩
  · rw [h]
  · rw [h, hT]
    exact List.Sublist.append (List.Sublist.refl pre) (List.sublist_cons_self t post)

/-! ## Complete -/

theorem getAt_split (pre : List Task) (t : Task) (post : List Task) :
    (pre ++ t :: post).get? pre.length = some t := by
  induction pre with
  | nil => rfl
  | cons a rest ih => exact ih

theorem set_split (pre : List Task) (t u : Task) (post : List Task) :
    (pre ++ t :: post).set pre.length u = pre ++ u :: post := by
  induction pre with
  | nil => rfl
  | cons a rest ih => exact congrArg (a :: ·) ih

theorem Complete_of_split {tl : TodoList} {id : Int} {pre : List Task} {t : Task}
    {post : List Task} (now : Time) (hT : tl.Tasks = pre ++ t :: post)
    (hpre : ∀ x ∈ pre, x.ID ≠ id) (hid : t.ID = id) :
    Complete tl id now =
      if t.Completed then
        (tl, [Event.print ("Task " ++ fmtInt id ++ " is already completed\n")])
      else
        ({ tl with Tasks := pre ++ { t with Completed := true, CompletedAt := some now } :: post },
         [Event.save
            { tl with Tasks := pre ++ { t with Completed := true, CompletedAt := some now } :: post },
          Event.print ("Task " ++ fmtInt id ++ " completed\n")]) := by
  unfold Complete
  rw [hT, findByID_split hpre hid]
  simp only [getAt_split, set_split]

theorem Complete_of_absent {tl : TodoList} {id : Int} (now : Time)
    (h : ∀ t ∈ tl.Tasks, t.ID ≠ id) : Complete tl id now = (tl, []) := by
  unfold Complete
  rw [findByID_eq_none.mpr h]

/-- Either `Complete` leaves the store as it is, or it marks one pending task
completed at the clock reading. -/
theorem Complete_cases (tl : TodoList) (id : Int) (now : Time) :
    (Complete tl id now).1 = tl ∨
    ∃ pre t post, tl.Tasks = pre ++ t :: post ∧ t.Completed = false ∧
      (Complete tl id now).1 =
        { tl with Tasks := pre ++ { t with Completed := true, CompletedAt := some now } :: post } := by
  cases hf : findByID id tl.Tasks with
  | none =>
    left
    rw [Complete_of_absent now (findByID_eq_none.mp hf)]
  | some i =>
    obtain ⟨pre, t, post, hl, _, hid, hpre⟩ := findByID_eq_some hf
    rw [Complete_of_split now hl hpre hid]
    cases hc : t.Completed with
    | true => left; simp
    | false => right; exact ⟨pre, t, post, hl, hc, by simp⟩

theorem Complete_NextID (tl : TodoList) (id : Int) (now : Time) :
    (Complete tl id now).1.NextID = tl.NextID := by
  rcases Complete_cases tl id now with h | ⟨pre, t, post, _, _, h⟩ <;> rw [h]

theorem Complete_ids (tl : TodoList) (id : Int) (now : Time) :
    (Complete tl id now).1.Tasks.map Task.ID = tl.Tasks.map Task.ID := by
  rcases Complete_cases tl id now with h | ⟨pre, t, post, hT, _, h⟩
  · rw [h]
  · rw [h, hT]
    simp

/-! ## The loop of DeleteCompleted -/

/-- An iteration of the loop either leaves the store alone or calls `Delete`
on it once. -/
theorem sweepStep_tl (st : SweepState) (i : Nat) :
    (sweepStep st i).tl = st.tl ∨ ∃ id, (sweepStep st i).tl = (Delete st.tl id).1 := by
  unfold sweepStep
  cases st.cells.get? i with
  | none => exact Or.inl rfl
  | some task =>
    cases hc : task.Completed with
    | false => left; simp [hc]
    | true => right; exact ⟨task.ID, by simp [hc]⟩

/-- A property of the store that every `Delete` keeps is kept by the loop. -/
theorem foldl_sweepStep_induct (P : TodoList → Prop)
    (hD : ∀ tl id, P tl → P (Delete tl id).1) :
    ∀ (l : List Nat) (st : SweepState), P st.tl → P (l.foldl sweepStep st).tl := by
  intro l
  induction l with
  | nil => intro st h; exact h
  | cons i rest ih =>
    intro st h
    rw [List.foldl_cons]
    apply ih
    rcases sweepStep_tl st i with h1 | ⟨id, h1⟩
    · rw [h1]; exact h
    · rw [h1]; exact hD _ _ h

/-- The cells that the loop reads always start with the current content of
the slice: a call of `Delete` that finds nothing leaves them as they are. -/
theorem foldl_sweepStep_cells :
    ∀ (l : List Nat) (st : SweepState), shiftCells st.tl.Tasks st.cells = st.cells →
      shiftCells (l.foldl sweepStep st).tl.Tasks (l.foldl sweepStep st).cells =
        (l.foldl sweepStep st).cells := by
  intro l
  induction l with
  | nil => intro st h; exact h
  | cons i rest ih =>
    intro st h
    rw [List.foldl_cons]
    apply ih
    unfold sweepStep
    cases st.cells.get? i with
    | none => exact h
    | some task =>
      cases hc : task.Completed with
      | false => simpa [hc] using h
      | true => simp [hc, shiftCells]

/-- The store that `DeleteCompleted` leaves is the store of the loop. -/
theorem DeleteCompleted_store (tl : TodoList) :
    (DeleteCompleted tl).1 = if tl.Tasks.length = 0 then tl else (sweep tl).tl := by
  unfold DeleteCompleted
  split
  · rfl
  · dsimp only
    split <;> rfl

/-- A property of the store that every `Delete` keeps is kept by
`DeleteCompleted`. -/
theorem DeleteCompleted_induct (P : TodoList → Prop)
    (hD : ∀ tl id, P tl → P (Delete tl id).1) (tl : TodoList) (h : P tl) :
    P (DeleteCompleted tl).1 := by
  have hs : P (sweep tl).tl := foldl_sweepStep_induct P hD _ _ h
  rw [DeleteCompleted_store]
  split
  · exact h
  · exact hs

theorem DeleteCompleted_NextID (tl : TodoList) :
    (DeleteCompleted tl).1.NextID = tl.NextID :=
  DeleteCompleted_induct (fun s => s.NextID = tl.NextID)
    (fun s id h => (Delete_NextID s id).trans h) tl rfl

theorem DeleteCompleted_filename (tl : TodoList) :
    (DeleteCompleted tl).1.filename = tl.filename :=
  DeleteCompleted_induct (fun s => s.filename = tl.filename)
    (fun s id h => (Delete_filename s id).trans h) tl rfl

theorem DeleteCompleted_sublist (tl : TodoList) :
    (DeleteCompleted tl).1.Tasks.Sublist tl.Tasks :=
  DeleteCompleted_induct (fun s => s.Tasks.Sublist tl.Tasks)
    (fun s id h => (Delete_sublist s id).trans h) tl (List.Sublist.refl _)

/-! ## Sequences of calls -/

theorem run_cons (tl : TodoList) (op : Op) (ops : List Op) :
    run tl (op :: ops) = run (step tl op) ops := rfl

theorem run_append (s : TodoList) (ops1 ops2 : List Op) :
    run s (ops1 ++ ops2) = run (run s ops1) ops2 := by
  simp [run, List.foldl_append]

/-- Below `maxInt` the increment does not wrap. -/
theorem wrapInt_succ {n : Int} (h1 : minInt ≤ n) (h2 : n < maxInt) :
    wrapInt (n + 1) = n + 1 := by
  unfold wrapInt
  unfold minInt at h1
  unfold maxInt at h2
  omega

theorem wrapInt_maxInt : wrapInt (maxInt + 1) = minInt := by decide

theorem step_NextID (tl : TodoList) (op : Op) :
    (step tl op).NextID = match op with
      | Op.add _ _ => wrapInt (tl.NextID + 1)
      | _ => tl.NextID := by
  cases op with
  | add d now => rfl
  | complete id now => exact Complete_NextID tl id now
  | delete id => exact Delete_NextID tl id
  | deleteCompleted => exact DeleteCompleted_NextID tl

/-- No call decreases `NextID` as long as `NextID` is below `maxInt`. -/
theorem step_NextID_le (tl : TodoList) (op : Op) (h1 : minInt ≤ tl.NextID)
    (h2 : tl.NextID < maxInt) : tl.NextID ≤ (step tl op).NextID := by
  rw [step_NextID]
  cases op with
  | add d now =>
    show tl.NextID ≤ wrapInt (tl.NextID + 1)
    rw [wrapInt_succ h1 h2]
    omega
  | complete id now => exact le_refl _
  | delete id => exact le_refl _
  | deleteCompleted => exact le_refl _

/-- The ids of the stored tasks after one call: those of before, or a
sublist of them, and after `Add` the old `NextID` at the end. -/
theorem step_ids (s : TodoList) (op : Op) :
    ((step s op).Tasks.map Task.ID).Sublist
      (s.Tasks.map Task.ID ++ assignedIDs s [op]) := by
  cases op with
  | add d now =>
    have hT : (step s (Op.add d now)).Tasks = s.Tasks ++ [newTask s d now] := rfl
    rw [hT, List.map_append]
    exact List.Sublist.refl _
  | complete id now =>
    have hT : (step s (Op.complete id now)).Tasks.map Task.ID = s.Tasks.map Task.ID :=
      Complete_ids s id now
    rw [hT]
    simp [assignedIDs]
  | delete id =>
    have hsub : (step s (Op.delete id)).Tasks.Sublist s.Tasks := Delete_sublist s id
    simpa [assignedIDs] using hsub.map Task.ID
  | deleteCompleted =>
    have hsub : (step s Op.deleteCompleted).Tasks.Sublist s.Tasks := DeleteCompleted_sublist s
    simpa [assignedIDs] using hsub.map Task.ID

theorem assignedIDs_cons (s : TodoList) (op : Op) (ops : List Op) :
    assignedIDs s (op :: ops) = assignedIDs s [op] ++ assignedIDs (step s op) ops := by
  cases op <;> simp [assignedIDs]

theorem assignedIDs_append (ops1 ops2 : List Op) :
    ∀ s : TodoList,
      assignedIDs s (ops1 ++ ops2) = assignedIDs s ops1 ++ assignedIDs (run s ops1) ops2 := by
  induction ops1 with
  | nil => intro s; rfl
  | cons op ops ih =>
    intro s
    rw [List.cons_append, assignedIDs_cons, ih, assignedIDs_cons s op ops, run_cons,
      List.append_assoc]

/-- The ids stored after a sequence of calls are among the ids stored before
it and the ids its `Add` calls assigned, in that order. -/
theorem run_ids (ops : List Op) :
    ∀ s : TodoList,
      ((run s ops).Tasks.map Task.ID).Sublist (s.Tasks.map Task.ID ++ assignedIDs s ops) := by
  induction ops with
  | nil => intro s; simp [run, assignedIDs]
  | cons op ops ih =>
    intro s
    rw [run_cons, assignedIDs_cons, ← List.append_assoc]
    exact (ih (step s op)).trans
      (List.Sublist.append (step_ids s op) (List.Sublist.refl _))

theorem assignedIDs_of_no_add (ops : List Op) (h : addCalls ops = 0) :
    ∀ s : TodoList, assignedIDs s ops = [] := by
  induction ops with
  | nil => intro s; rfl
  | cons op ops ih =>
    intro s
    cases op with
    | add d now => simp [addCalls] at h
    | complete id now => exact ih (by simpa [addCalls] using h) _
    | delete id => exact ih (by simpa [addCalls] using h) _
    | deleteCompleted => exact ih (by simpa [addCalls] using h) _

/-- As long as the `Add` calls of a sequence do not take the ids past
`maxInt`, the ids they hand out start at `NextID`, stay below `NextID` plus
their number, and increase strictly. -/
theorem assignedIDs_increasing (ops : List Op) :
    ∀ tl : TodoList, minInt ≤ tl.NextID → tl.NextID + addCalls ops ≤ maxInt + 1 →
      (∀ i ∈ assignedIDs tl ops, tl.NextID ≤ i ∧ i < tl.NextID + addCalls ops) ∧
      List.Pairwise (· < ·) (assignedIDs tl ops) := by
  induction ops with
  | nil => intro tl _ _; simp [assignedIDs]
  | cons op ops ih =>
    intro tl hlo hhi
    cases op with
    | add d now =>
      simp only [addCalls, Nat.cast_add, Nat.cast_one] at hhi ⊢
      by_cases hz : addCalls ops = 0
      · rw [assignedIDs_cons, assignedIDs_of_no_add ops hz]
        simp [assignedIDs, newTask, hz]
      · have hpos : (1 : Int) ≤ addCalls ops := by
          have : 1 ≤ addCalls ops := Nat.one_le_iff_ne_zero.mpr hz
          exact_mod_cast this
        have hlt : tl.NextID < maxInt := by omega
        have hN : (step tl (Op.add d now)).NextID = tl.NextID + 1 := by
          rw [step_NextID]
          exact wrapInt_succ hlo hlt
        obtain ⟨hb, hpw⟩ := ih (step tl (Op.add d now)) (by rw [hN]; omega) (by rw [hN]; omega)
        rw [hN] at hb
        simp only [assignedIDs, newTask, List.mem_cons, List.pairwise_cons]
        refine ⟨?_, ?_, hpw⟩
        · rintro i (rfl | hi)
          · omega
          · have := hb i hi
            omega
        · intro i hi
          have := hb i hi
          omega
    | complete id now =>
      have hN : (step tl (Op.complete id now)).NextID = tl.NextID := Complete_NextID tl id now
      have h := ih (step tl (Op.complete id now)) (by rw [hN]; exact hlo)
        (by rw [hN]; simpa [addCalls] using hhi)
      rw [hN] at h
      simpa [assignedIDs, addCalls] using h
    | delete id =>
      have hN : (step tl (Op.delete id)).NextID = tl.NextID := Delete_NextID tl id
      have h := ih (step tl (Op.delete id)) (by rw [hN]; exact hlo)
        (by rw [hN]; simpa [addCalls] using hhi)
      rw [hN] at h
      simpa [assignedIDs, addCalls] using h
    | deleteCompleted =>
      have hN : (step tl Op.deleteCompleted).NextID = tl.NextID := DeleteCompleted_NextID tl
      have h := ih (step tl Op.deleteCompleted) (by rw [hN]; exact hlo)
        (by rw [hN]; simpa [addCalls] using hhi)
      rw [hN] at h
      simpa [assignedIDs, addCalls] using h

/-- As long as the `Add` calls of a sequence do not take `NextID` past
`maxInt`, `NextID` grows by their number. -/
theorem run_NextID (ops : List Op) :
    ∀ s : TodoList, minInt ≤ s.NextID → s.NextID + addCalls ops ≤ maxInt →
      (run s ops).NextID = s.NextID + addCalls ops := by
  induction ops with
  | nil => intro s _ _; simp [run, addCalls]
  | cons op ops ih =>
    intro s hlo hhi
    rw [run_cons]
    cases op with
    | add d now =>
      simp only [addCalls, Nat.cast_add, Nat.cast_one] at hhi ⊢
      have hN : (step s (Op.add d now)).NextID = s.NextID + 1 := by
        rw [step_NextID]
        exact wrapInt_succ hlo (by omega)
      rw [ih _ (by rw [hN]; omega) (by rw [hN]; omega), hN]
      omega
    | complete id now =>
      have hN : (step s (Op.complete id now)).NextID = s.NextID := Complete_NextID s id now
      rw [ih _ (by rw [hN]; exact hlo) (by rw [hN]; simpa [addCalls] using hhi), hN]
      simp [addCalls]
    | delete id =>
      have hN : (step s (Op.delete id)).NextID = s.NextID := Delete_NextID s id
      rw [ih _ (by rw [hN]; exact hlo) (by rw [hN]; simpa [addCalls] using hhi), hN]
      simp [addCalls]
    | deleteCompleted =>
      have hN : (step s Op.deleteCompleted).NextID = s.NextID := DeleteCompleted_NextID s
      rw [ih _ (by rw [hN]; exact hlo) (by rw [hN]; simpa [addCalls] using hhi), hN]
      simp [addCalls]

theorem addCalls_manyAdds (n : Nat) : addCalls (manyAdds n) = n := by
  induction n with
  | zero => rfl
  | succ k ih =>
    show addCalls (Op.add "x" 0 :: manyAdds k) = k + 1
    simp [addCalls, ih]

/-- The store after `n` calls of `Add` on the empty store, when `n` is below
`maxInt`: `NextID` is `n + 1`. -/
theorem manyAdds_NextID (filename : String) (n : Nat) (h : (n : Int) + 1 ≤ maxInt) :
    (run (emptyStore filename) (manyAdds n)).NextID = n + 1 := by
  have hr := run_NextID (manyAdds n) (emptyStore filename)
    (by show minInt ≤ 1; decide)
    (by rw [addCalls_manyAdds]; show (1 : Int) + n ≤ maxInt; omega)
  rw [hr, addCalls_manyAdds]
  show (1 : Int) + n = n + 1
  omega

theorem assignedIDs_two (s : TodoList) (d1 d2 : GoString) (t1 t2 : Time) :
    assignedIDs s [Op.add d1 t1, Op.add d2 t2] = [s.NextID, wrapInt (s.NextID + 1)] := rfl

/-- The wrap: when `n` calls of `Add` have taken `NextID` to `maxInt`, the
next two calls hand out `maxInt` and then `minInt`. -/
theorem manyAdds_wrap (filename : String) (n : Nat) (h : (n : Int) + 1 = maxInt) :
    assignedIDs (emptyStore filename) (manyAdds n ++ [Op.add "x" 0, Op.add "x" 0]) =
      assignedIDs (emptyStore filename) (manyAdds n) ++ [maxInt, minInt] := by
  rw [assignedIDs_append, assignedIDs_two, manyAdds_NextID filename n (le_of_eq h), h,
    wrapInt_maxInt]

/-- When `n` calls of `Add` have taken `NextID` to `maxInt`, one more call
takes it to `minInt` and stores a task with the id `maxInt`. -/
theorem manyAdds_last (filename : String) (n : Nat) (h : (n : Int) + 1 = maxInt) :
    (run (emptyStore filename) (manyAdds n)).NextID = maxInt ∧
    (run (emptyStore filename) (manyAdds n ++ [Op.add "x" 0])).NextID = minInt ∧
    ∃ t ∈ (run (emptyStore filename) (manyAdds n ++ [Op.add "x" 0])).Tasks,
      ¬ t.ID < (run (emptyStore filename) (manyAdds n ++ [Op.add "x" 0])).NextID := by
  have hN : (run (emptyStore filename) (manyAdds n)).NextID = maxInt := by
    rw [manyAdds_NextID filename n (le_of_eq h), h]
  rw [run_append]
  generalize run (emptyStore filename) (manyAdds n) = S at hN ⊢
  have hstep : (run S [Op.add "x" 0]).NextID = minInt := by
    show wrapInt (S.NextID + 1) = minInt
    rw [hN, wrapInt_maxInt]
  refine ⟨hN, hstep, newTask S "x" 0, ?_, ?_⟩
  · show _ ∈ S.Tasks ++ [newTask S "x" 0]
    exact List.mem_append_right _ (List.mem_singleton.mpr rfl)
  · rw [hstep]
    show ¬ S.NextID < minInt
    rw [hN]
    decide

/-- With clock readings that never go back, the task invariant holds after
the calls if it held before them and no stored task was created after the
first reading still to come. -/
theorem TaskInv_run (ops : List Op) :
    ∀ s : TodoList, (∀ t ∈ s.Tasks, TaskInv t) →
      (∀ t ∈ s.Tasks, ∀ r ∈ clockReadings ops, t.CreatedAt ≤ r) →
      List.Pairwise (· ≤ ·) (clockReadings ops) →
      ∀ t ∈ (run s ops).Tasks, TaskInv t := by
  induction ops with
  | nil => intro s h _ _; exact h
  | cons op ops ih =>
    intro s hinv hcr hpw
    rw [run_cons]
    cases op with
    | add d now =>
      simp only [clockReadings, List.pairwise_cons, List.mem_cons] at hcr hpw
      have hT : (step s (Op.add d now)).Tasks = s.Tasks ++ [newTask s d now] := rfl
      apply ih
      · intro t ht
        rw [hT, List.mem_append, List.mem_singleton] at ht
        rcases ht with ht | rfl
        · exact hinv t ht
        · exact ⟨fun _ => rfl, fun h => by simp [newTask] at h⟩
      · intro t ht r hr
        rw [hT, List.mem_append, List.mem_singleton] at ht
        rcases ht with ht | rfl
        · exact hcr t ht r (Or.inr hr)
        · exact hpw.1 r hr
      · exact hpw.2
    | complete id now =>
      simp only [clockReadings, List.pairwise_cons, List.mem_cons] at hcr hpw
      rcases Complete_cases s id now with h | ⟨pre, u, post, hT, hu, h⟩
      · have hs : step s (Op.complete id now) = s := h
        rw [hs]
        exact ih s hinv (fun t ht r hr => hcr t ht r (Or.inr hr)) hpw.2
      · have hs : (step s (Op.complete id now)).Tasks =
            pre ++ { u with Completed := true, CompletedAt := some now } :: post := by
          show (Complete s id now).1.Tasks = _
          rw [h]
        have hmem : ∀ t ∈ (step s (Op.complete id now)).Tasks,
            t ∈ s.Tasks ∨ t = { u with Completed := true, CompletedAt := some now } := by
          intro t ht
          rw [hs] at ht
          rw [hT]
          simp only [List.mem_append, List.mem_cons] at ht ⊢
          tauto
        have hum : u ∈ s.Tasks := by rw [hT]; simp
        apply ih
        · intro t ht
          rcases hmem t ht with ht | rfl
          · exact hinv t ht
          · exact ⟨fun h => by simp at h, fun _ => ⟨now, rfl, hcr u hum now (Or.inl rfl)⟩⟩
        · intro t ht r hr
          rcases hmem t ht with ht | rfl
          · exact hcr t ht r (Or.inr hr)
          · exact hcr u hum r (Or.inr hr)
        · exact hpw.2
    | delete id =>
      have hsub : (step s (Op.delete id)).Tasks.Sublist s.Tasks := Delete_sublist s id
      exact ih _ (fun t ht => hinv t (hsub.subset ht))
        (fun t ht r hr => hcr t (hsub.subset ht) r hr) hpw
    | deleteCompleted =>
      have hsub : (step s Op.deleteCompleted).Tasks.Sublist s.Tasks := DeleteCompleted_sublist s
      exact ih _ (fun t ht => hinv t (hsub.subset ht))
        (fun t ht r hr => hcr t (hsub.subset ht) r hr) hpw

/-! ## The claims -/

/-- Claim C1, at an input where it fails: 2^63 calls of `Add` on the empty
store.  The call number 2^63 - 1 is given the id `maxInt`, `NextID` wraps
around, and the next call is given the id `minInt`: the ids are not
increasing. -/
theorem C1_counterexample_wrap :
    ¬ List.Pairwise (· < ·)
      (assignedIDs (emptyStore "todos.json")
        (manyAdds 9223372036854775806 ++ [Op.add "x" 0, Op.add "x" 0])) := by
  rw [manyAdds_wrap "todos.json" 9223372036854775806 (by decide)]
  intro h
  have h2 := (List.pairwise_append.mp h).2.1
  rw [List.pairwise_cons] at h2
  have h3 := h2.1 minInt (List.mem_singleton.mpr rfl)
  exact absurd h3 (by decide)

/-- Claim C1, amended: starting from the empty store, for every sequence of
`Add`, `Complete`, `Delete` and `DeleteCompleted` calls with at most
2^63 - 1 calls of `Add`, the ids that the `Add` calls assign are strictly
increasing in call order and pairwise distinct; `Add`, `Add`, `Delete(1)`,
`Add` assigns 1, 2, 3. -/
theorem C1_add_ids_strictly_increasing (filename : String) (ops : List Op)
    (h : addCalls ops ≤ 9223372036854775807) :
    List.Pairwise (· < ·) (assignedIDs (emptyStore filename) ops) ∧
    (assignedIDs (emptyStore filename) ops).Nodup ∧
    (∀ (t1 t2 t3 : Time),
      assignedIDs (emptyStore filename)
        [Op.add "Buy milk" t1, Op.add "Walk dog" t2, Op.delete 1, Op.add "Read book" t3]
        = [1, 2, 3]) := by
  have hb : (emptyStore filename).NextID + addCalls ops ≤ maxInt + 1 := by
    show (1 : Int) + addCalls ops ≤ 9223372036854775807 + 1
    omega
  have hpw := (assignedIDs_increasing ops (emptyStore filename)
    (by show minInt ≤ 1; decide) hb).2
  exact ⟨hpw, hpw.imp (fun hab => ne_of_lt hab), fun t1 t2 t3 => rfl⟩

theorem C1_add_ids_strictly_increasing_witness :
    addCalls [Op.add "Buy milk" 10, Op.complete 1 20, Op.add "Walk dog" 30,
      Op.deleteCompleted, Op.add "Read book" 40] ≤ 9223372036854775807 ∧
    (List.Pairwise (· < ·) (assignedIDs (emptyStore "todos.json")
      [Op.add "Buy milk" 10, Op.complete 1 20, Op.add "Walk dog" 30,
        Op.deleteCompleted, Op.add "Read book" 40]) ∧
     (assignedIDs (emptyStore "todos.json")
      [Op.add "Buy milk" 10, Op.complete 1 20, Op.add "Walk dog" 30,
        Op.deleteCompleted, Op.add "Read book" 40]).Nodup ∧
     (∀ (t1 t2 t3 : Time),
      assignedIDs (emptyStore "todos.json")
        [Op.add "Buy milk" t1, Op.add "Walk dog" t2, Op.delete 1, Op.add "Read book" t3]
        = [1, 2, 3])) :=
  ⟨by decide, C1_add_ids_strictly_increasing "todos.json" _ (by decide)⟩

/-- Claim C2, at an input where the code departs from it: on the store with
tasks 1 and 2 completed and task 3 pending, `DeleteCompleted` removes task 1
only; the completed task 2 stays in the store next to the pending task 3. -/
theorem C2_deleteCompleted_leaves_completed_task :
    twoDoneOnePending.Tasks =
      [⟨1, "Buy milk", true, 10, some 40⟩, ⟨2, "Walk dog", true, 20, some 50⟩,
       ⟨3, "Read book", false, 30, none⟩] ∧
    (DeleteCompleted twoDoneOnePending).1.Tasks =
      [⟨2, "Walk dog", true, 20, some 50⟩, ⟨3, "Read book", false, 30, none⟩] ∧
    (DeleteCompleted twoDoneOnePending).1.Tasks ≠
      twoDoneOnePending.Tasks.filter (fun t => !t.Completed) := by
  decide

/-- Claim C3: for an id that occurs in the store, `Delete` removes exactly one
task, the first one with that id: the store splits as `pre`, the task, `post`
with no task of that id in `pre`, and the result is `pre ++ post`, one task
shorter, with `NextID` (and the file name) unchanged. -/
theorem C3_delete_removes_first_match (tl : TodoList) (id : Int)
    (h : ∃ t ∈ tl.Tasks, t.ID = id) :
    ∃ pre t post, tl.Tasks = pre ++ t :: post ∧ t.ID = id ∧ (∀ x ∈ pre, x.ID ≠ id) ∧
      (Delete tl id).1.Tasks = pre ++ post ∧
      (Delete tl id).1.Tasks.length + 1 = tl.Tasks.length ∧
      (Delete tl id).1.NextID = tl.NextID ∧
      (Delete tl id).1.filename = tl.filename := by
  obtain ⟨pre, t, post, hT, hid, hpre⟩ := exists_first_match h
  refine ⟨pre, t, post, hT, hid, hpre, ?_⟩
  rw [Delete_of_split hT hpre hid, hT]
  refine ⟨rfl, ?_, rfl, rfl⟩
  simp only [List.length_append, List.length_cons]
  omega

theorem C3_delete_removes_first_match_witness :
    (∃ t ∈ oneDoneOnePending.Tasks, t.ID = 1) ∧
    ∃ pre t post, oneDoneOnePending.Tasks = pre ++ t :: post ∧ t.ID = 1 ∧
      (∀ x ∈ pre, x.ID ≠ 1) ∧
      (Delete oneDoneOnePending 1).1.Tasks = pre ++ post ∧
      (Delete oneDoneOnePending 1).1.Tasks.length + 1 = oneDoneOnePending.Tasks.length ∧
      (Delete oneDoneOnePending 1).1.NextID = oneDoneOnePending.NextID ∧
      (Delete oneDoneOnePending 1).1.filename = oneDoneOnePending.filename :=
  ⟨⟨⟨1, "Buy milk", true, 10, some 30⟩, by decide, rfl⟩,
   C3_delete_removes_first_match oneDoneOnePending 1
     ⟨⟨1, "Buy milk", true, 10, some 30⟩, by decide, rfl⟩⟩

/-- Claim C4: when the first task with the id is already completed, `Complete`
prints the already-completed line and returns the store as it was (every
task, the order, `NextID`); the printed line is its only effect, so there is
no save. -/
theorem C4_complete_already_completed (tl : TodoList) (id : Int) (now : Time)
    (pre : List Task) (t : Task) (post : List Task)
    (hT : tl.Tasks = pre ++ t :: post) (hpre : ∀ x ∈ pre, x.ID ≠ id) (hid : t.ID = id)
    (hc : t.Completed = true) :
    Complete tl id now =
      (tl, [Event.print ("Task " ++ fmtInt id ++ " is already completed\n")]) := by
  rw [Complete_of_split now hT hpre hid, if_pos hc]

theorem C4_complete_already_completed_witness :
    oneDoneOnePending.Tasks =
      [] ++ (⟨1, "Buy milk", true, 10, some 30⟩ : Task) :: [⟨2, "Walk dog", false, 20, none⟩] ∧
    Complete oneDoneOnePending 1 99 =
      (oneDoneOnePending, [Event.print "Task 1 is already completed\n"]) :=
  ⟨by decide,
   C4_complete_already_completed oneDoneOnePending 1 99 []
     ⟨1, "Buy milk", true, 10, some 30⟩ [⟨2, "Walk dog", false, 20, none⟩]
     (by decide) (by simp) rfl rfl⟩

/-- Claim C5, at an input where it fails: on a store whose `NextID` is
`maxInt`, `Add` leaves `NextID` at `minInt`, not at `NextID + 1`. -/
theorem C5_counterexample_wrap :
    (Add { Tasks := [], NextID := 9223372036854775807, filename := "todos.json" } "x" 0).1.NextID
      = -9223372036854775808 ∧
    (Add { Tasks := [], NextID := 9223372036854775807, filename := "todos.json" } "x" 0).1.NextID
      ≠ 9223372036854775807 + 1 := by
  decide

/-- Claim C5, amended: on a store whose `NextID` is below `maxInt`, `Add`
appends exactly one task with `ID = NextID`, the given description (any
string), `Completed = false`, `CreatedAt` the clock reading and no
`CompletedAt`; the tasks already stored are unchanged, `NextID` grows by one,
the store is saved, and the line printed carries the old `NextID` and the
description. -/
theorem C5_add_appends_new_task (s : TodoList) (d : GoString) (t : Time)
    (hlo : minInt ≤ s.NextID) (hhi : s.NextID < maxInt) :
    (Add s d t).1.Tasks =
      s.Tasks ++ [{ ID := s.NextID, Description := d, Completed := false,
                    CreatedAt := t, CompletedAt := none }] ∧
    (Add s d t).1.NextID = s.NextID + 1 ∧
    (Add s d t).1.filename = s.filename ∧
    (Add s d t).2 =
      [Event.save (Add s d t).1,
       Event.print ("Added task: " ++ fmtInt s.NextID ++ " - " ++ d ++ "\n")] :=
  ⟨rfl, wrapInt_succ hlo hhi, rfl, rfl⟩

theorem C5_add_appends_new_task_witness :
    minInt ≤ oneDoneOnePending.NextID ∧ oneDoneOnePending.NextID < maxInt ∧
    ((Add oneDoneOnePending "" 40).1.Tasks =
      oneDoneOnePending.Tasks ++ [⟨oneDoneOnePending.NextID, "", false, 40, none⟩] ∧
     (Add oneDoneOnePending "" 40).1.NextID = oneDoneOnePending.NextID + 1 ∧
     (Add oneDoneOnePending "" 40).1.filename = oneDoneOnePending.filename ∧
     (Add oneDoneOnePending "" 40).2 =
      [Event.save (Add oneDoneOnePending "" 40).1,
       Event.print ("Added task: " ++ fmtInt oneDoneOnePending.NextID ++ " - " ++
         ("" : GoString) ++ "\n")]) :=
  ⟨by decide, by decide, C5_add_appends_new_task oneDoneOnePending "" 40 (by decide) (by decide)⟩

/-- Claim C6, at an input where it fails: 2^63 - 2 calls of `Add` on the empty
store take `NextID` to `maxInt`; one more `Add` takes it down to `minInt`,
and the store then holds a task whose id is not below `NextID`. -/
theorem C6_counterexample_wrap :
    (run (emptyStore "todos.json") (manyAdds 9223372036854775806)).NextID = maxInt ∧
    (run (emptyStore "todos.json") (manyAdds 9223372036854775806 ++ [Op.add "x" 0])).NextID
      = minInt ∧
    ∃ t ∈ (run (emptyStore "todos.json")
        (manyAdds 9223372036854775806 ++ [Op.add "x" 0])).Tasks,
      ¬ t.ID < (run (emptyStore "todos.json")
        (manyAdds 9223372036854775806 ++ [Op.add "x" 0])).NextID :=
  manyAdds_last "todos.json" 9223372036854775806 (by decide)

/-- Claim C6, amended: in every store reached from the empty store by a sequence
of `Add`, `Complete`, `Delete` and `DeleteCompleted` calls with fewer than
2^63 - 1 calls of `Add`, the task ids are pairwise distinct, positive and
below `NextID`; and on a store whose `NextID` is below `maxInt` no call
decreases `NextID`. -/
theorem C6_store_invariant (filename : String) (ops : List Op)
    (h : addCalls ops < 9223372036854775807) :
    ((run (emptyStore filename) ops).Tasks.map Task.ID).Nodup ∧
    (∀ t ∈ (run (emptyStore filename) ops).Tasks,
      0 < t.ID ∧ t.ID < (run (emptyStore filename) ops).NextID) ∧
    (∀ (s : TodoList) (op : Op), minInt ≤ s.NextID → s.NextID < maxInt →
      s.NextID ≤ (step s op).NextID) := by
  have hlo : minInt ≤ (emptyStore filename).NextID := by show minInt ≤ 1; decide
  have hb : (emptyStore filename).NextID + addCalls ops ≤ maxInt := by
    show (1 : Int) + addCalls ops ≤ 9223372036854775807
    omega
  obtain ⟨hbd, hpw⟩ := assignedIDs_increasing ops (emptyStore filename) hlo (by omega)
  have hsub := run_ids ops (emptyStore filename)
  have hnil : (emptyStore filename).Tasks.map Task.ID = [] := rfl
  rw [hnil, List.nil_append] at hsub
  refine ⟨(hpw.imp (fun hab => ne_of_lt hab)).sublist hsub, fun t ht => ?_,
    fun s op h1 h2 => step_NextID_le s op h1 h2⟩
  have hm := hbd t.ID (hsub.subset (List.mem_map_of_mem _ ht))
  rw [run_NextID ops (emptyStore filename) hlo hb]
  have h1 : (emptyStore filename).NextID = 1 := rfl
  rw [h1] at hm ⊢
  omega

theorem C6_store_invariant_witness :
    addCalls [Op.add "Buy milk" 10, Op.add "Walk dog" 20, Op.complete 1 30,
      Op.deleteCompleted, Op.add "Read book" 40] < 9223372036854775807 ∧
    (((run (emptyStore "todos.json")
        [Op.add "Buy milk" 10, Op.add "Walk dog" 20, Op.complete 1 30,
          Op.deleteCompleted, Op.add "Read book" 40]).Tasks.map Task.ID).Nodup ∧
     (∀ t ∈ (run (emptyStore "todos.json")
        [Op.add "Buy milk" 10, Op.add "Walk dog" 20, Op.complete 1 30,
          Op.deleteCompleted, Op.add "Read book" 40]).Tasks,
      0 < t.ID ∧ t.ID < (run (emptyStore "todos.json")
        [Op.add "Buy milk" 10, Op.add "Walk dog" 20, Op.complete 1 30,
          Op.deleteCompleted, Op.add "Read book" 40]).NextID) ∧
     (∀ (s : TodoList) (op : Op), minInt ≤ s.NextID → s.NextID < maxInt →
      s.NextID ≤ (step s op).NextID)) :=
  ⟨by decide, C6_store_invariant "todos.json" _ (by decide)⟩

/-- Claim C7, at an input where the code departs from it: on the store whose
three tasks 1, 2, 3 are all completed, `DeleteCompleted` closes with
`Deleted 3 completed tasks` while it removed two tasks; task 2 is still
stored, and the third call of `Delete` found nothing. -/
theorem C7_reported_count_exceeds_removed :
    threeDone.Tasks.map Task.ID = [1, 2, 3] ∧
    threeDone.Tasks.map Task.Completed = [true, true, true] ∧
    reportedCount threeDone = 3 ∧
    (DeleteCompleted threeDone).2.getLast? =
      some (Event.print "Deleted 3 completed tasks\n") ∧
    Event.print "Task 3 not found\n" ∈ (DeleteCompleted threeDone).2 ∧
    (DeleteCompleted threeDone).1.Tasks = [⟨2, "Walk dog", true, 20, some 50⟩] ∧
    threeDone.Tasks.length - (DeleteCompleted threeDone).1.Tasks.length = 2 := by
  decide

/-- Claim C8: when the first task with the id is not completed, `Complete`
sets its `Completed` to true and its `CompletedAt` to the clock reading and
changes nothing else (its `ID`, `Description`, `CreatedAt`, the other tasks,
their order and number, `NextID`); it saves the new store and then prints the
success line. -/
theorem C8_complete_pending_task (tl : TodoList) (id : Int) (now : Time)
    (pre : List Task) (t : Task) (post : List Task)
    (hT : tl.Tasks = pre ++ t :: post) (hpre : ∀ x ∈ pre, x.ID ≠ id) (hid : t.ID = id)
    (hc : t.Completed = false) :
    (Complete tl id now).1.Tasks =
      pre ++ { ID := t.ID, Description := t.Description, Completed := true,
               CreatedAt := t.CreatedAt, CompletedAt := some now } :: post ∧
    (Complete tl id now).1.Tasks.length = tl.Tasks.length ∧
    (Complete tl id now).1.NextID = tl.NextID ∧
    (Complete tl id now).1.filename = tl.filename ∧
    (Complete tl id now).2 =
      [Event.save (Complete tl id now).1,
       Event.print ("Task " ++ fmtInt id ++ " completed\n")] := by
  rw [Complete_of_split now hT hpre hid, hc, hT]
  simp

theorem C8_complete_pending_task_witness :
    oneDoneOnePending.Tasks =
      [(⟨1, "Buy milk", true, 10, some 30⟩ : Task)] ++
        (⟨2, "Walk dog", false, 20, none⟩ : Task) :: [] ∧
    (Complete oneDoneOnePending 2 99).1.Tasks =
      [(⟨1, "Buy milk", true, 10, some 30⟩ : Task)] ++
        (⟨2, "Walk dog", true, 20, some 99⟩ : Task) :: [] ∧
    (Complete oneDoneOnePending 2 99).1.Tasks.length = oneDoneOnePending.Tasks.length ∧
    (Complete oneDoneOnePending 2 99).1.NextID = oneDoneOnePending.NextID ∧
    (Complete oneDoneOnePending 2 99).1.filename = oneDoneOnePending.filename ∧
    (Complete oneDoneOnePending 2 99).2 =
      [Event.save (Complete oneDoneOnePending 2 99).1, Event.print "Task 2 completed\n"] :=
  ⟨by decide,
   C8_complete_pending_task oneDoneOnePending 2 99
     [⟨1, "Buy milk", true, 10, some 30⟩] ⟨2, "Walk dog", false, 20, none⟩ []
     (by decide) (by decide) rfl rfl⟩

/-- Claim C9: in every store reached from the empty store by `Add`, `Complete`,
`Delete` and `DeleteCompleted` with clock readings that never go back from
one call to the next, a task with `Completed = false` has no `CompletedAt`,
and a task with `Completed = true` has a `CompletedAt` that is not earlier
than its `CreatedAt`. -/
theorem C9_task_invariant (filename : String) (ops : List Op)
    (h : List.Pairwise (· ≤ ·) (clockReadings ops)) :
    ∀ t ∈ (run (emptyStore filename) ops).Tasks,
      (t.Completed = false → t.CompletedAt = none) ∧
      (t.Completed = true → ∃ c, t.CompletedAt = some c ∧ t.CreatedAt ≤ c) :=
  TaskInv_run ops (emptyStore filename) (fun _ ht => by simp [emptyStore] at ht)
    (fun _ ht => by simp [emptyStore] at ht) h

theorem C9_task_invariant_witness :
    List.Pairwise (· ≤ ·)
      (clockReadings [Op.add "Buy milk" 10, Op.add "Walk dog" 20, Op.complete 1 30,
        Op.deleteCompleted, Op.add "Read book" 30, Op.complete 3 45]) ∧
    ∀ t ∈ (run (emptyStore "todos.json")
        [Op.add "Buy milk" 10, Op.add "Walk dog" 20, Op.complete 1 30,
         Op.deleteCompleted, Op.add "Read book" 30, Op.complete 3 45]).Tasks,
      (t.Completed = false → t.CompletedAt = none) ∧
      (t.Completed = true → ∃ c, t.CompletedAt = some c ∧ t.CreatedAt ≤ c) :=
  ⟨by decide, C9_task_invariant "todos.json" _ (by decide)⟩

/-- Claim C10: for an id that matches no task, `Delete` prints
`Task <id> not found` and returns the store as it was; the printed line is its
only effect, so there is no save. -/
theorem C10_delete_not_found (tl : TodoList) (id : Int)
    (h : ∀ t ∈ tl.Tasks, t.ID ≠ id) :
    Delete tl id = (tl, [Event.print ("Task " ++ fmtInt id ++ " not found\n")]) :=
  Delete_of_absent h

theorem C10_delete_not_found_witness :
    (∀ t ∈ oneDoneOnePending.Tasks, t.ID ≠ 7) ∧
    Delete oneDoneOnePending 7 = (oneDoneOnePending, [Event.print "Task 7 not found\n"]) :=
  ⟨by decide, C10_delete_not_found oneDoneOnePending 7 (by decide)⟩

/-! ## Further lemmas -/

/-- In a list with distinct ids, two tasks with the same id are the same
task. -/
theorem eq_of_ID_eq {l : List Task} (hnd : (l.map Task.ID).Nodup) {a b : Task}
    (ha : a ∈ l) (hb : b ∈ l) (h : a.ID = b.ID) : a = b :=
  List.inj_on_of_nodup_map hnd ha hb h

/-- A completed task whose id is carried by no other stored task and is not
handed out by the call: after the call, a stored task with that id is still
that very task. -/
theorem completed_kept_step {s : TodoList} {t : Task} (hc : t.Completed = true)
    (hu : ∀ x ∈ s.Tasks, x.ID = t.ID → x = t) (op : Op)
    (hfresh : ∀ i ∈ assignedIDs s [op], i ≠ t.ID) :
    ∀ x ∈ (step s op).Tasks, x.ID = t.ID → x = t := by
  cases op with
  | add d now =>
    intro x hx hid
    have hT : (step s (Op.add d now)).Tasks = s.Tasks ++ [newTask s d now] := rfl
    rw [hT, List.mem_append, List.mem_singleton] at hx
    rcases hx with hx | rfl
    · exact hu x hx hid
    · exact absurd hid (hfresh _ (List.mem_singleton.mpr rfl))
  | complete id now =>
    intro x hx hid
    rcases Complete_cases s id now with h | ⟨pre, u, post, hT, hpend, h⟩
    · have hs : step s (Op.complete id now) = s := h
      rw [hs] at hx
      exact hu x hx hid
    · have hs : (step s (Op.complete id now)).Tasks =
          pre ++ { u with Completed := true, CompletedAt := some now } :: post := by
        show (Complete s id now).1.Tasks = _
        rw [h]
      rw [hs] at hx
      have hum : u ∈ s.Tasks := by rw [hT]; simp
      simp only [List.mem_append, List.mem_cons] at hx
      rcases hx with hx | rfl | hx
      · exact hu x (by rw [hT]; simp [hx]) hid
      · have hut : u = t := hu u hum hid
        rw [hut, hc] at hpend
        exact absurd hpend (by simp)
      · exact hu x (by rw [hT]; simp [hx]) hid
  | delete id =>
    intro x hx hid
    exact hu x ((Delete_sublist s id).subset hx) hid
  | deleteCompleted =>
    intro x hx hid
    exact hu x ((DeleteCompleted_sublist s).subset hx) hid

theorem completed_kept_run (ops : List Op) :
    ∀ (s : TodoList) (t : Task), t.Completed = true →
      (∀ x ∈ s.Tasks, x.ID = t.ID → x = t) →
      (∀ i ∈ assignedIDs s ops, i ≠ t.ID) →
      ∀ x ∈ (run s ops).Tasks, x.ID = t.ID → x = t := by
  induction ops with
  | nil => intro s t _ hu _; exact hu
  | cons op ops ih =>
    intro s t hc hu hfresh
    rw [assignedIDs_cons] at hfresh
    rw [run_cons]
    exact ih (step s op) t hc
      (completed_kept_step hc hu op (fun i hi => hfresh i (List.mem_append_left _ hi)))
      (fun i hi => hfresh i (List.mem_append_right _ hi))

/-- The cells of the loop of `DeleteCompleted` hold tasks of the original
store only, and with distinct ids the loop removes completed tasks only: the
store stays a sublist of the original one with the same pending tasks. -/
theorem sweepStep_keeps_pending {orig : List Task} (hnd : (orig.map Task.ID).Nodup)
    {st : SweepState} (i : Nat) (h1 : st.tl.Tasks.Sublist orig)
    (h2 : ∀ c ∈ st.cells, c ∈ orig)
    (h3 : st.tl.Tasks.filter (fun t => !t.Completed) = orig.filter (fun t => !t.Completed)) :
    (sweepStep st i).tl.Tasks.Sublist orig ∧
    (∀ c ∈ (sweepStep st i).cells, c ∈ orig) ∧
    (sweepStep st i).tl.Tasks.filter (fun t => !t.Completed) =
      orig.filter (fun t => !t.Completed) := by
  unfold sweepStep
  cases hg : st.cells.get? i with
  | none => exact ⟨h1, h2, h3⟩
  | some task =>
    have htask : task ∈ orig := h2 task (List.get?_mem hg)
    cases hc : task.Completed with
    | false => simpa [hc] using ⟨h1, h2, h3⟩
    | true =>
      simp only [hc, if_true]
      have hsub : (Delete st.tl task.ID).1.Tasks.Sublist orig :=
        (Delete_sublist st.tl task.ID).trans h1
      refine ⟨hsub, ?_, ?_⟩
      · intro c hcm
        unfold shiftCells at hcm
        rcases List.mem_append.mp hcm with hcm | hcm
        · exact hsub.subset hcm
        · exact h2 c (List.mem_of_mem_drop hcm)
      · rcases Delete_cases st.tl task.ID with h | ⟨pre, x, post, hT, hid, _, h⟩
        · rw [h]; exact h3
        · have hx : x ∈ orig := h1.subset (by rw [hT]; simp)
          have hxt : x = task := eq_of_ID_eq hnd hx htask hid
          rw [h, ← h3, hT]
          simp [List.filter_append, List.filter_cons, hxt, hc]

theorem foldl_sweepStep_keeps_pending {orig : List Task} (hnd : (orig.map Task.ID).Nodup) :
    ∀ (l : List Nat) (st : SweepState), st.tl.Tasks.Sublist orig →
      (∀ c ∈ st.cells, c ∈ orig) →
      st.tl.Tasks.filter (fun t => !t.Completed) = orig.filter (fun t => !t.Completed) →
      (l.foldl sweepStep st).tl.Tasks.filter (fun t => !t.Completed) =
        orig.filter (fun t => !t.Completed) := by
  intro l
  induction l with
  | nil => intro st _ _ h3; exact h3
  | cons i rest ih =>
    intro st h1 h2 h3
    obtain ⟨k1, k2, k3⟩ := sweepStep_keeps_pending hnd i h1 h2 h3
    rw [List.foldl_cons]
    exact ih _ k1 k2 k3

theorem DeleteCompleted_keeps_pending (tl : TodoList) (hnd : (tl.Tasks.map Task.ID).Nodup) :
    (DeleteCompleted tl).1.Tasks.filter (fun t => !t.Completed) =
      tl.Tasks.filter (fun t => !t.Completed) := by
  rw [DeleteCompleted_store]
  split
  · rfl
  · exact foldl_sweepStep_keeps_pending hnd _ _ (List.Sublist.refl _) (fun _ h => h) rfl

/-! ## Stats -/

theorem foldl_completed (l : List Task) :
    ∀ acc : Int,
      l.foldl (fun completed task => if task.Completed then completed + 1 else completed) acc =
        acc + (l.countP (fun t => t.Completed) : Nat) := by
  induction l with
  | nil => intro acc; simp
  | cons a rest ih =>
    intro acc
    rw [List.foldl_cons, ih]
    cases ha : a.Completed with
    | false => simp [ha]
    | true =>
      simp [ha]
      omega

theorem statsCompleted_eq (tl : TodoList) :
    statsCompleted tl = (tl.Tasks.countP (fun t => t.Completed) : Nat) := by
  unfold statsCompleted
  rw [foldl_completed]
  simp

theorem statsPending_eq (tl : TodoList) :
    statsPending tl = (tl.Tasks.countP (fun t => !t.Completed) : Nat) := by
  unfold statsPending statsTotal
  rw [statsCompleted_eq]
  have h := List.length_eq_countP_add_countP (fun t : Task => t.Completed) tl.Tasks
  have h2 : (fun t : Task => !t.Completed) = (fun a : Task => decide ¬a.Completed = true) := by
    funext t
    cases ht : t.Completed <;> simp
  rw [h2]
  omega

/-- The percentage line is the fifth and last line of `Stats`, printed exactly
when the store holds a task; with no task the division is not reached. -/
theorem Stats_percentage_line (percent : Int → Int → String) (tl : TodoList) :
    (tl.Tasks ≠ [] →
      (Stats percent tl).2.drop 4 =
        [Event.print ("Completion percentage: " ++
          percent (statsCompleted tl) (statsTotal tl) ++ "%\n")]) ∧
    (tl.Tasks = [] → (Stats percent tl).2.drop 4 = []) := by
  constructor
  · intro h
    have hpos : statsTotal tl > 0 := by
      unfold statsTotal
      have := List.length_pos.mpr h
      omega
    simp [Stats, hpos]
  · intro h
    have hz : ¬ statsTotal tl > 0 := by
      unfold statsTotal
      simp [h]
    simp [Stats, hz]

/-! ## Persistence -/

theorem Complete_filename (tl : TodoList) (id : Int) (now : Time) :
    (Complete tl id now).1.filename = tl.filename := by
  rcases Complete_cases tl id now with h | ⟨pre, t, post, _, _, h⟩ <;> rw [h]

theorem step_filename (tl : TodoList) (op : Op) : (step tl op).filename = tl.filename := by
  cases op with
  | add d now => rfl
  | complete id now => exact Complete_filename tl id now
  | delete id => exact Delete_filename tl id
  | deleteCompleted => exact DeleteCompleted_filename tl

theorem run_filename (ops : List Op) : ∀ tl : TodoList, (run tl ops).filename = tl.filename := by
  induction ops with
  | nil => intro tl; rfl
  | cons op ops ih => intro tl; rw [run_cons, ih, step_filename]

theorem wrapInt_range (n : Int) : minInt ≤ wrapInt n ∧ wrapInt n ≤ maxInt := by
  unfold wrapInt minInt maxInt
  omega

theorem assignedIDs_single (s : TodoList) (op : Op) :
    ∀ i ∈ assignedIDs s [op], i = s.NextID := by
  cases op <;> simp [assignedIDs, newTask]

/-- The ids and `NextID` stay values of `int`. -/
theorem step_range {s : TodoList} (hN : minInt ≤ s.NextID ∧ s.NextID ≤ maxInt)
    (hid : ∀ i ∈ s.Tasks.map Task.ID, minInt ≤ i ∧ i ≤ maxInt) (op : Op) :
    (minInt ≤ (step s op).NextID ∧ (step s op).NextID ≤ maxInt) ∧
    ∀ i ∈ (step s op).Tasks.map Task.ID, minInt ≤ i ∧ i ≤ maxInt := by
  constructor
  · rw [step_NextID]
    cases op with
    | add d now => exact wrapInt_range _
    | complete id now => exact hN
    | delete id => exact hN
    | deleteCompleted => exact hN
  · intro i hi
    rcases List.mem_append.mp ((step_ids s op).subset hi) with h | h
    · exact hid i h
    · rw [assignedIDs_single s op i h]
      exact hN

theorem run_range (ops : List Op) :
    ∀ s : TodoList, (minInt ≤ s.NextID ∧ s.NextID ≤ maxInt) →
      (∀ i ∈ s.Tasks.map Task.ID, minInt ≤ i ∧ i ≤ maxInt) →
      (minInt ≤ (run s ops).NextID ∧ (run s ops).NextID ≤ maxInt) ∧
      ∀ i ∈ (run s ops).Tasks.map Task.ID, minInt ≤ i ∧ i ≤ maxInt := by
  induction ops with
  | nil => intro s hN hid; exact ⟨hN, hid⟩
  | cons op ops ih =>
    intro s hN hid
    rw [run_cons]
    exact ih _ (step_range hN hid op).1 (step_range hN hid op).2

/-- A task written by `marshalTask` is read back with no error, its
description coerced to valid UTF-8 and its other fields as they were, when
the library reads back the literals it writes. -/
theorem decodeTask_marshalTask (L : JsonLib) (hq : ∀ s, L.unquote (L.quote s) = s)
    (ht : ∀ t, L.parseTime (L.formatTime t) = some t) (t : Task)
    (hid : minInt ≤ t.ID ∧ t.ID ≤ maxInt) :
    decodeTask L (marshalTask L t) = some (coerceDescription t, false) := by
  have h1 : taskFieldOf "id" = some TaskField.id := by decide
  have h2 : taskFieldOf "description" = some TaskField.description := by decide
  have h3 : taskFieldOf "completed" = some TaskField.completed := by decide
  have h4 : taskFieldOf "created_at" = some TaskField.createdAt := by decide
  have h5 : taskFieldOf "completed_at" = some TaskField.completedAt := by decide
  obtain ⟨i, d, c, ca, co⟩ := t
  simp only at hid
  cases co with
  | none =>
    simp [decodeTask, marshalTask, decodeTaskMembers, decodeTaskMember, h1, h2, h3, h4, h5,
      decodeInt, decodeString, decodeBool, decodeTime, decodeTimePtr, hq, ht, zeroTask, hid,
      coerceDescription]
  | some w =>
    simp [decodeTask, marshalTask, decodeTaskMembers, decodeTaskMember, h1, h2, h3, h4, h5,
      decodeInt, decodeString, decodeBool, decodeTime, decodeTimePtr, hq, ht, zeroTask, hid,
      coerceDescription]

theorem decodeTasks_marshal (L : JsonLib) (hq : ∀ s, L.unquote (L.quote s) = s)
    (ht : ∀ t, L.parseTime (L.formatTime t) = some t) (l : List Task)
    (hid : ∀ t ∈ l, minInt ≤ t.ID ∧ t.ID ≤ maxInt) :
    decodeTasks L (l.map (marshalTask L)) = some (l.map coerceDescription, false) := by
  induction l with
  | nil => rfl
  | cons a rest ih =>
    simp only [List.map_cons, decodeTasks,
      decodeTask_marshalTask L hq ht a (hid a (List.mem_cons_self _ _)),
      ih (fun t h => hid t (List.mem_cons_of_mem _ h)), Bool.or_self]

/-- The document that `MarshalIndent` writes for a store is decoded, into a
store with no task, as the same tasks with their descriptions coerced to
valid UTF-8 and the same `NextID`, with no error. -/
theorem decodeDoc_MarshalIndent (L : JsonLib) (hq : ∀ s, L.unquote (L.quote s) = s)
    (ht : ∀ t, L.parseTime (L.formatTime t) = some t) (s base : TodoList)
    (hbase : base.Tasks = []) (hN : minInt ≤ s.NextID ∧ s.NextID ≤ maxInt)
    (hid : ∀ t ∈ s.Tasks, minInt ≤ t.ID ∧ t.ID ≤ maxInt) :
    decodeDoc L base (MarshalIndent L s) =
      some ({ base with Tasks := s.Tasks.map coerceDescription, NextID := s.NextID }, false) := by
  have h1 : todoFieldOf "tasks" = some TodoField.tasks := by decide
  have h2 : todoFieldOf "next_id" = some TodoField.nextID := by decide
  simp [decodeDoc, MarshalIndent, decodeTodoMembers, decodeTodoMember, h1, h2, hbase,
    decodeTasks_marshal L hq ht s.Tasks hid, decodeInt, hN]

theorem NewTodoList_save (L : JsonLib) (hq : ∀ s, L.unquote (L.quote s) = s)
    (ht : ∀ t, L.parseTime (L.formatTime t) = some t) (s : TodoList) (disk : Disk)
    (hN : minInt ≤ s.NextID ∧ s.NextID ≤ maxInt)
    (hid : ∀ t ∈ s.Tasks, minInt ≤ t.ID ∧ t.ID ≤ maxInt) :
    NewTodoList L (save L s disk none).1 s.filename =
      ({ s with Tasks := s.Tasks.map coerceDescription }, []) := by
  have hread : (save L s disk none).1 (emptyStore s.filename).filename =
      some (FileContent.document (MarshalIndent L s)) := by
    show (if s.filename = s.filename then _ else _) = _
    rw [if_pos rfl]
  unfold NewTodoList Load
  rw [hread]
  simp only [Unmarshal, decodeDoc_MarshalIndent L hq ht s (emptyStore s.filename) rfl hN hid]
  rfl

theorem map_coerceDescription (l : List Task) (h : ∀ t ∈ l, ValidUTF8 t.Description) :
    l.map coerceDescription = l := by
  induction l with
  | nil => rfl
  | cons a rest ih =>
    have ha : coerceDescription a = a := by
      have hv : GoString.ofString (toValidUTF8 a.Description) = a.Description :=
        h a (List.mem_cons_self _ _)
      unfold coerceDescription
      rw [hv]
    rw [List.map_cons, ha, ih (fun t ht => h t (List.mem_cons_of_mem _ ht))]

theorem sampleLib_unquote (s : String) : sampleLib.unquote (sampleLib.quote s) = s := rfl

theorem sampleLib_parseTime (t : Time) :
    sampleLib.parseTime (sampleLib.formatTime t) = some t := by
  show some (List.replicate t 'I').length = some t
  rw [List.length_replicate]

/-! ## The claims, continued -/

/-- Claim C11: for an id that matches no task, `Complete` returns the store as
it was and has no effect at all: no line printed, no save. -/
theorem C11_complete_absent_is_silent (tl : TodoList) (id : Int) (now : Time)
    (h : ∀ t ∈ tl.Tasks, t.ID ≠ id) :
    Complete tl id now = (tl, []) :=
  Complete_of_absent now h

theorem C11_complete_absent_is_silent_witness :
    (∀ t ∈ oneDoneOnePending.Tasks, t.ID ≠ 7) ∧
    Complete oneDoneOnePending 7 99 = (oneDoneOnePending, []) :=
  ⟨by decide, C11_complete_absent_is_silent oneDoneOnePending 7 99 (by decide)⟩

/-- Claim C12: `Stats` returns the store as it was and saves nothing; its first
four lines are the heading, the number of tasks, the number of completed
tasks and the number of tasks that are not completed, which is the total
minus the completed; for three tasks of which one is completed the lines
read 3, 1 and 2. -/
theorem C12_stats_counts (percent : Int → Int → String) (tl : TodoList) :
    (Stats percent tl).1 = tl ∧
    (∀ snapshot, Event.save snapshot ∉ (Stats percent tl).2) ∧
    (Stats percent tl).2.take 4 =
      [Event.print "\n Tasks Stats: \n\n",
       Event.print ("Total tasks: " ++ fmtInt (tl.Tasks.length : Nat) ++ "\n"),
       Event.print ("Completed tasks: " ++
         fmtInt (tl.Tasks.countP (fun t => t.Completed) : Nat) ++ "\n"),
       Event.print ("Pending tasks: " ++
         fmtInt (tl.Tasks.countP (fun t => !t.Completed) : Nat) ++ "\n")] ∧
    statsPending tl = statsTotal tl - statsCompleted tl ∧
    statsTotal tl = statsCompleted tl + statsPending tl ∧
    (Stats percent oneOfThreeDone).2.take 4 =
      [Event.print "\n Tasks Stats: \n\n", Event.print "Total tasks: 3\n",
       Event.print "Completed tasks: 1\n", Event.print "Pending tasks: 2\n"] := by
  refine ⟨rfl, ?_, ?_, rfl, ?_, ?_⟩
  · intro snapshot hmem
    unfold Stats at hmem
    simp only [List.mem_append, List.mem_cons, List.mem_singleton] at hmem
    rcases hmem with (h | h | h | h | h) | h
    · cases h
    · cases h
    · cases h
    · cases h
    · cases h
    · split at h
      · simp at h
      · simp at h
  · rw [← statsCompleted_eq, ← statsPending_eq]
    rfl
  · unfold statsPending
    omega
  · have ht : statsTotal oneOfThreeDone = 3 := by decide
    have hc : statsCompleted oneOfThreeDone = 1 := by decide
    have hp : statsPending oneOfThreeDone = 2 := by decide
    simp only [Stats, ht, hc, hp, List.cons_append, List.nil_append, List.take_succ_cons,
      List.take_zero]
    decide

/-- Claim C14, at two inputs where it fails, both with pairwise distinct ids.
In the first the store holds one task, completed, with id 1, and `NextID` is
1: after `Delete(1)` and `Add` the store holds a task with id 1 that is not
completed.  In the second the completed task has the id `minInt` and
`NextID` is `maxInt`, above it: after two calls of `Add`, `NextID` has
wrapped and the store holds a second task with the id `minInt`, not
completed. -/
theorem C14_counterexample_id_reused :
    ((staleCounterStore.Tasks.map Task.ID).Nodup ∧
     (⟨1, "Buy milk", true, 10, some 20⟩ : Task) ∈ (run staleCounterStore []).Tasks ∧
     (⟨1, "Read book", false, 30, none⟩ : Task) ∈
       (run staleCounterStore ([] ++ [Op.delete 1, Op.add "Read book" 30])).Tasks) ∧
    ((wrapCounterStore.Tasks.map Task.ID).Nodup ∧
     (∀ t ∈ wrapCounterStore.Tasks, t.ID < wrapCounterStore.NextID) ∧
     (⟨-9223372036854775808, "Buy milk", true, 10, some 20⟩ : Task) ∈
       (run wrapCounterStore []).Tasks ∧
     (⟨-9223372036854775808, "Read book", false, 40, none⟩ : Task) ∈
       (run wrapCounterStore
         ([] ++ [Op.add "Walk dog" 30, Op.add "Read book" 40])).Tasks) := by
  decide

/-- Claim C14, amended: in a store whose ids are pairwise distinct and all
below `NextID`, for every sequence of `Add`, `Complete`, `Delete` and
`DeleteCompleted` calls whose `Add` calls do not take the ids past `maxInt`
(`NextID` plus the number of `Add` calls is at most 2^63), a task that is
completed at some point is, in every later store that holds a task with its
id, that same task: still completed, with the same `CompletedAt`. -/
theorem C14_completion_never_reversed (s : TodoList)
    (hnd : (s.Tasks.map Task.ID).Nodup) (hlt : ∀ t ∈ s.Tasks, t.ID < s.NextID)
    (ops1 ops2 : List Op) (hlo : minInt ≤ s.NextID)
    (hhi : s.NextID + addCalls (ops1 ++ ops2) ≤ maxInt + 1)
    (t : Task) (ht : t ∈ (run s ops1).Tasks) (hc : t.Completed = true) :
    ∀ x ∈ (run s (ops1 ++ ops2)).Tasks, x.ID = t.ID →
      x.Completed = true ∧ x.CompletedAt = t.CompletedAt ∧ x = t := by
  intro x hx hid
  obtain ⟨hbd, hpw⟩ := assignedIDs_increasing (ops1 ++ ops2) s hlo hhi
  rw [assignedIDs_append] at hbd hpw
  obtain ⟨hpw1, _, hcross⟩ := List.pairwise_append.mp hpw
  have hold : ∀ i ∈ s.Tasks.map Task.ID, i < s.NextID := by
    intro i hi
    obtain ⟨u, hu, rfl⟩ := List.mem_map.mp hi
    exact hlt u hu
  have hndall : (s.Tasks.map Task.ID ++ assignedIDs s ops1).Nodup := by
    refine List.Nodup.append hnd (hpw1.imp (fun hab => ne_of_lt hab)) ?_
    intro i hi hi2
    have h1 := hold i hi
    have h2 := (hbd i (List.mem_append_left _ hi2)).1
    omega
  have hsub := run_ids ops1 s
  have hnd1 : ((run s ops1).Tasks.map Task.ID).Nodup := hndall.sublist hsub
  have htid : t.ID ∈ s.Tasks.map Task.ID ++ assignedIDs s ops1 :=
    hsub.subset (List.mem_map_of_mem _ ht)
  have hfresh : ∀ i ∈ assignedIDs (run s ops1) ops2, i ≠ t.ID := by
    intro i hi
    rcases List.mem_append.mp htid with h1 | h1
    · have h2 := hold _ h1
      have h3 := (hbd i (List.mem_append_right _ hi)).1
      omega
    · have := hcross _ h1 _ hi
      omega
  rw [run_append] at hx
  have hxt : x = t :=
    completed_kept_run ops2 (run s ops1) t hc
      (fun y hy hyid => eq_of_ID_eq hnd1 hy ht hyid) hfresh x hx hid
  exact ⟨hxt ▸ hc, hxt ▸ rfl, hxt⟩

theorem C14_completion_never_reversed_witness :
    (oneDoneOnePending.Tasks.map Task.ID).Nodup ∧
    (∀ t ∈ oneDoneOnePending.Tasks, t.ID < oneDoneOnePending.NextID) ∧
    minInt ≤ oneDoneOnePending.NextID ∧
    oneDoneOnePending.NextID +
      addCalls ([Op.complete 2 40] ++
        [Op.delete 1, Op.add "Read book" 50, Op.complete 2 60, Op.complete 3 70])
      ≤ maxInt + 1 ∧
    (⟨2, "Walk dog", true, 20, some 40⟩ : Task) ∈
      (run oneDoneOnePending [Op.complete 2 40]).Tasks ∧
    ∀ x ∈ (run oneDoneOnePending
        ([Op.complete 2 40] ++
         [Op.delete 1, Op.add "Read book" 50, Op.complete 2 60, Op.complete 3 70])).Tasks,
      x.ID = (⟨2, "Walk dog", true, 20, some 40⟩ : Task).ID →
      x.Completed = true ∧
      x.CompletedAt = (⟨2, "Walk dog", true, 20, some 40⟩ : Task).CompletedAt ∧
      x = ⟨2, "Walk dog", true, 20, some 40⟩ :=
  ⟨by decide, by decide, by decide, by decide, by decide,
   C14_completion_never_reversed oneDoneOnePending (by decide) (by decide)
     [Op.complete 2 40]
     [Op.delete 1, Op.add "Read book" 50, Op.complete 2 60, Op.complete 3 70]
     (by decide) (by decide) ⟨2, "Walk dog", true, 20, some 40⟩ (by decide) rfl⟩

/-- Claim C17, at inputs where it fails: started with no flag at all, `main`
shows the usage text and returns, so the exit status is 0; started with
`-complete 0`, or with `-add ""`, it takes the `default` branch and exits
with status 1. -/
theorem C17_counterexample_exit_status :
    noFlags.nflag = 0 ∧ main noFlags = (Command.showUsage, 0) ∧
    main { noFlags with complete := 0, nflag := 1 } = (Command.invalid, 1) ∧
    main { noFlags with add := "", nflag := 1 } = (Command.invalid, 1) := by
  decide

/-- Claim C17, amended: once `flag.Parse` has accepted the command line, the
exit status is 0 when `-help` is set or no flag is set at all (the usage text
is shown), and when one of `-add` with a non-empty text, `-list`, `-pending`,
`-complete` with an id above 0, `-delete` with an id above 0,
`-delete-completed`, `-stats` is set; in every other case it is 1. -/
theorem C17_exit_status (fl : Flags) :
    ((main fl).2 = 0 ↔
      (fl.help = true ∨ fl.nflag = 0 ∨ fl.add ≠ "" ∨ fl.list = true ∨ fl.pending = true ∨
       0 < fl.complete ∨ 0 < fl.delete ∨ fl.deleteCompleted = true ∨ fl.stats = true)) ∧
    ((main fl).2 = 0 ∨ (main fl).2 = 1) := by
  unfold main
  by_cases h1 : fl.help = true <;> by_cases h2 : fl.nflag = 0 <;>
    by_cases h3 : fl.add = "" <;> by_cases h4 : fl.list = true <;>
    by_cases h5 : fl.pending = true <;> by_cases h6 : 0 < fl.complete <;>
    by_cases h7 : 0 < fl.delete <;> by_cases h8 : fl.deleteCompleted = true <;>
    by_cases h9 : fl.stats = true <;> simp [h1, h2, h3, h4, h5, h6, h7, h8, h9]

/-- Claim C20: in a store with pairwise distinct ids, `DeleteCompleted` leaves a
subsequence of the original tasks (same order, tasks unchanged) that holds
every task that was pending, and `NextID` is unchanged. -/
theorem C20_deleteCompleted_keeps_pending (tl : TodoList)
    (hnd : (tl.Tasks.map Task.ID).Nodup) :
    (DeleteCompleted tl).1.Tasks.Sublist tl.Tasks ∧
    (∀ t ∈ tl.Tasks, t.Completed = false → t ∈ (DeleteCompleted tl).1.Tasks) ∧
    (DeleteCompleted tl).1.Tasks.filter (fun t => !t.Completed) =
      tl.Tasks.filter (fun t => !t.Completed) ∧
    (DeleteCompleted tl).1.NextID = tl.NextID := by
  have hf := DeleteCompleted_keeps_pending tl hnd
  refine ⟨DeleteCompleted_sublist tl, fun t ht hc => ?_, hf, DeleteCompleted_NextID tl⟩
  have hm : t ∈ tl.Tasks.filter (fun t => !t.Completed) :=
    List.mem_filter.mpr ⟨ht, by simp [hc]⟩
  rw [← hf] at hm
  exact (List.mem_filter.mp hm).1

theorem C20_deleteCompleted_keeps_pending_witness :
    (twoDoneOnePending.Tasks.map Task.ID).Nodup ∧
    ((DeleteCompleted twoDoneOnePending).1.Tasks.Sublist twoDoneOnePending.Tasks ∧
     (∀ t ∈ twoDoneOnePending.Tasks, t.Completed = false →
        t ∈ (DeleteCompleted twoDoneOnePending).1.Tasks) ∧
     (DeleteCompleted twoDoneOnePending).1.Tasks.filter (fun t => !t.Completed) =
       twoDoneOnePending.Tasks.filter (fun t => !t.Completed) ∧
     (DeleteCompleted twoDoneOnePending).1.NextID = twoDoneOnePending.NextID) :=
  ⟨by decide, C20_deleteCompleted_keeps_pending twoDoneOnePending (by decide)⟩

/-- Claim C16, at an input where it fails: the store reached by `Add` of a
description that ends in the byte 255.  `save` writes the description
coerced to valid UTF-8, the byte replaced by U+FFFD, and `NewTodoList` reads
back a task whose description ends in the three bytes of U+FFFD instead: not
the store that was saved. -/
theorem C16_counterexample_invalid_utf8 :
    (∀ s, sampleLib.unquote (sampleLib.quote s) = s) ∧
    (∀ t, sampleLib.parseTime (sampleLib.formatTime t) = some t) ∧
    badTextStore =
      { Tasks := [⟨1, ⟨[98, 97, 100, 32, 255]⟩, false, 10, none⟩], NextID := 2,
        filename := "todos.json" } ∧
    NewTodoList sampleLib (save sampleLib badTextStore (fun _ => none) none).1 "todos.json" =
      ({ Tasks := [⟨1, ⟨[98, 97, 100, 32, 239, 191, 189]⟩, false, 10, none⟩], NextID := 2,
         filename := "todos.json" }, []) ∧
    NewTodoList sampleLib (save sampleLib badTextStore (fun _ => none) none).1 "todos.json" ≠
      (badTextStore, []) :=
  ⟨sampleLib_unquote, sampleLib_parseTime, by decide, by decide, by decide⟩

/-- Claim C16, amended: for every store reached from the empty store by the four
operations whose task descriptions are valid UTF-8, a `save` whose write
succeeds followed by `NewTodoList` (which loads the same file) gives back
the same store, tasks in order with all their fields and `NextID`, and logs
nothing; the library is assumed to read back the string and timestamp
literals it writes. -/
theorem C16_save_load_round_trip (L : JsonLib) (hq : ∀ s, L.unquote (L.quote s) = s)
    (ht : ∀ t, L.parseTime (L.formatTime t) = some t) (filename : String) (ops : List Op)
    (disk : Disk)
    (hvalid : ∀ t ∈ (run (emptyStore filename) ops).Tasks, ValidUTF8 t.Description) :
    NewTodoList L (save L (run (emptyStore filename) ops) disk none).1 filename =
      (run (emptyStore filename) ops, []) := by
  have hr := run_range ops (emptyStore filename) (by show minInt ≤ 1 ∧ (1 : Int) ≤ maxInt; decide)
    (fun i hi => by simp [emptyStore] at hi)
  have h := NewTodoList_save L hq ht (run (emptyStore filename) ops) disk hr.1
    (fun t htm => hr.2 t.ID (List.mem_map_of_mem _ htm))
  rw [map_coerceDescription _ hvalid] at h
  have hf : (run (emptyStore filename) ops).filename = filename := run_filename ops _
  calc NewTodoList L (save L (run (emptyStore filename) ops) disk none).1 filename
      = NewTodoList L (save L (run (emptyStore filename) ops) disk none).1
          (run (emptyStore filename) ops).filename := by rw [hf]
    _ = (run (emptyStore filename) ops, []) := h

theorem C16_save_load_round_trip_witness :
    (∀ s, sampleLib.unquote (sampleLib.quote s) = s) ∧
    (∀ t, sampleLib.parseTime (sampleLib.formatTime t) = some t) ∧
    (∀ t ∈ (run (emptyStore "todos.json")
        [Op.add "Buy milk" 10, Op.add "Walk dog" 20, Op.complete 1 30, Op.delete 2]).Tasks,
      ValidUTF8 t.Description) ∧
    NewTodoList sampleLib
      (save sampleLib
        (run (emptyStore "todos.json")
          [Op.add "Buy milk" 10, Op.add "Walk dog" 20, Op.complete 1 30, Op.delete 2])
        (fun _ => none) none).1 "todos.json" =
      (run (emptyStore "todos.json")
        [Op.add "Buy milk" 10, Op.add "Walk dog" 20, Op.complete 1 30, Op.delete 2], []) :=
  ⟨sampleLib_unquote, sampleLib_parseTime, by decide,
   C16_save_load_round_trip sampleLib sampleLib_unquote sampleLib_parseTime "todos.json"
     [Op.add "Buy milk" 10, Op.add "Walk dog" 20, Op.complete 1 30, Op.delete 2]
     (fun _ => none) (by decide)⟩

/-- Claim C18: when the backing file cannot be read, `NewTodoList` yields the
empty store, no task and `NextID` 1, and logs nothing. -/
theorem C18_load_missing_file (L : JsonLib) (disk : Disk) (filename : String)
    (h : disk filename = none) :
    NewTodoList L disk filename =
      ({ Tasks := [], NextID := 1, filename := filename }, []) := by
  unfold NewTodoList Load
  show (match disk filename with
    | none => (emptyStore filename, [])
    | some content => _) = _
  rw [h]
  rfl

theorem C18_load_missing_file_witness :
    (fun _ => none : Disk) "todos.json" = none ∧
    NewTodoList sampleLib (fun _ => none) "todos.json" =
      ({ Tasks := [], NextID := 1, filename := "todos.json" }, []) :=
  ⟨rfl, C18_load_missing_file sampleLib (fun _ => none) "todos.json" rfl⟩

/-- Claim C19, at an input where it fails: the file holds a valid document with
one task and a string for `next_id`.  `json.Unmarshal` returns an error, the
diagnostic is logged, and the store that `NewTodoList` yields holds the task
of the file, with `NextID` still 1. -/
theorem C19_counterexample_wrong_type :
    (Unmarshal sampleLib (FileContent.document wrongTypeDoc) (emptyStore "todos.json")).2
      = true ∧
    NewTodoList sampleLib (fun _ => some (FileContent.document wrongTypeDoc)) "todos.json" =
      ({ Tasks := [⟨7, "", true, 0, none⟩], NextID := 1, filename := "todos.json" },
       [Diagnostic.errorLoading]) := by
  decide

/-- Claim C19, amended: for every content of the backing file on which
`json.Unmarshal` returns an error, `NewTodoList` logs the diagnostic and
yields the store as `Unmarshal` left it; when the content is not valid JSON
(a syntax error) that store is the empty store, no task and `NextID` 1. -/
theorem C19_load_unparsable (L : JsonLib) (disk : Disk) (filename : String)
    (content : FileContent) (hfile : disk filename = some content)
    (herr : (Unmarshal L content (emptyStore filename)).2 = true) :
    NewTodoList L disk filename =
      ((Unmarshal L content (emptyStore filename)).1, [Diagnostic.errorLoading]) ∧
    (∀ text, content = FileContent.invalid text →
      NewTodoList L disk filename =
        ({ Tasks := [], NextID := 1, filename := filename }, [Diagnostic.errorLoading])) := by
  have hload : NewTodoList L disk filename =
      ((Unmarshal L content (emptyStore filename)).1, [Diagnostic.errorLoading]) := by
    unfold NewTodoList Load
    show (match disk filename with
      | none => (emptyStore filename, [])
      | some content => _) = _
    rw [hfile]
    simp only [herr, if_true]
  refine ⟨hload, fun text htext => ?_⟩
  rw [hload, htext]
  rfl

theorem C19_load_unparsable_witness :
    (fun _ => some (FileContent.invalid "not json") : Disk) "todos.json" =
      some (FileContent.invalid "not json") ∧
    (Unmarshal sampleLib (FileContent.invalid "not json") (emptyStore "todos.json")).2 = true ∧
    (NewTodoList sampleLib (fun _ => some (FileContent.invalid "not json")) "todos.json" =
      ((Unmarshal sampleLib (FileContent.invalid "not json") (emptyStore "todos.json")).1,
       [Diagnostic.errorLoading]) ∧
     (∀ text, FileContent.invalid "not json" = FileContent.invalid text →
      NewTodoList sampleLib (fun _ => some (FileContent.invalid "not json")) "todos.json" =
        ({ Tasks := [], NextID := 1, filename := "todos.json" },
         [Diagnostic.errorLoading]))) :=
  ⟨rfl, rfl,
   C19_load_unparsable sampleLib (fun _ => some (FileContent.invalid "not json")) "todos.json"
     (FileContent.invalid "not json") rfl rfl⟩

end TodoApp
